import Mathlib

set_option autoImplicit false
set_option maxHeartbeats 1000000

/-!
Verification of the Supertonic TTS web engine core (text normalization,
chunking, tokenization, latent sampling, inference orchestration and WAV
serialization).  Strings are embedded as lists of Unicode scalar values
(`List Char`); JS numbers appearing in exact integer or dyadic-rational
roles are embedded as `Nat`/`Int`/`Rat`.
-/

attribute [local semireducible] Rat.add Rat.mul Rat.inv Rat.sub

abbrev Str := List Char

/-- The JS `\s` whitespace class (used by `trim`, `split(/\s.../)` and
`replace` of the whitespace regex in the source). -/
def isWS (c : Char) : Bool :=
  c = ' ' || c = Char.ofNat 9 || c = Char.ofNat 10 || c = Char.ofNat 11 ||
  c = Char.ofNat 12 || c = Char.ofNat 13 || c = Char.ofNat 0xa0 ||
  c = Char.ofNat 0x1680 ||
  (Char.ofNat 0x2000 ≤ c && c ≤ Char.ofNat 0x200a) ||
  c = Char.ofNat 0x2028 || c = Char.ofNat 0x2029 || c = Char.ofNat 0x202f ||
  c = Char.ofNat 0x205f || c = Char.ofNat 0x3000 || c = Char.ofNat 0xfeff

/-- JS `String.prototype.trim`: strip leading and trailing whitespace. -/
def trimStr (s : Str) : Str :=
  ((s.dropWhile isWS).reverse.dropWhile isWS).reverse

/-- JS `String.prototype.includes` for a fixed pattern: substring test. -/
def containsSub (pat : Str) : Str → Bool
  | [] => pat.isPrefixOf []
  | c :: cs => pat.isPrefixOf (c :: cs) || containsSub pat cs

/-- JS `String.prototype.replace` with a plain-string pattern: replace the
first occurrence only. -/
def replaceFirst (pat rep : Str) : Str → Str
  | [] => []
  | c :: cs =>
    if pat.isPrefixOf (c :: cs) then rep ++ (c :: cs).drop pat.length
    else c :: replaceFirst pat rep cs

/-- Recursion core of `replaceAllStr`; the fuel argument (instantiated
with the string length, an upper bound on the number of scanning steps)
makes the recursion structural so that terms reduce in the kernel. -/
def replaceAllStrAux (pat rep : Str) : Nat → Str → Str
  | _, [] => []
  | 0, s => s
  | fuel + 1, c :: cs =>
    if pat.isPrefixOf (c :: cs) then
      rep ++ replaceAllStrAux pat rep fuel ((c :: cs).drop pat.length)
    else c :: replaceAllStrAux pat rep fuel cs

/-- JS `String.prototype.replaceAll` (equally, `replace` with a global
regex whose pattern is a string literal): replace all occurrences,
scanning left to right and never rescanning a replacement. -/
def replaceAllStr (pat rep : Str) (s : Str) : Str :=
  if pat = [] then s else replaceAllStrAux pat rep s.length s

theorem length_dropWhile_le (p : Char → Bool) (l : Str) :
    (l.dropWhile p).length ≤ l.length := by
  induction l with
  | nil => simp [List.dropWhile]
  | cons x xs ih =>
    by_cases h : p x = true
    · simp only [List.dropWhile, h, List.length_cons]
      omega
    · simp only [List.dropWhile, h]
      simp

theorem replaceFirst_pair_length (c : Char) (s : Str)
    (h : containsSub [c, c] s = true) :
    (replaceFirst [c, c] [c] s).length + 1 = s.length := by
  induction s with
  | nil => simp [containsSub, List.isPrefixOf] at h
  | cons x xs ih =>
    simp only [containsSub, Bool.or_eq_true] at h
    by_cases hp : ([c, c].isPrefixOf (x :: xs)) = true
    · have hle : 2 ≤ (x :: xs).length :=
        (List.isPrefixOf_iff_prefix.mp hp).length_le
      simp only [replaceFirst]
      rw [if_pos hp]
      simp only [List.length_append, List.length_drop, List.length_cons,
        List.length_singleton, List.length_nil]
      simp only [List.length_cons] at hle
      omega
    · have h2 := h.resolve_left hp
      have hih := ih h2
      simp only [replaceFirst]
      rw [if_neg hp]
      simp only [List.length_cons]
      omega

/-- Recursion core of `collapsePair`; each loop iteration shortens the
string by one character, so string length is sufficient fuel. -/
def collapsePairAux (c : Char) : Nat → Str → Str
  | 0, s => s
  | fuel + 1, s =>
    if containsSub [c, c] s then collapsePairAux c fuel (replaceFirst [c, c] [c] s)
    else s

/-- One of the quote-collapsing `while (text.includes(...))` loops of the source:
collapse doubled occurrences of a character until none remain. -/
def collapsePair (c : Char) (s : Str) : Str :=
  collapsePairAux c s.length s

/-- Recursion core of `collapseWS`; fuel is the string length. -/
def collapseWSAux : Nat → Str → Str
  | _, [] => []
  | 0, s => s
  | fuel + 1, c :: cs =>
    if isWS c then ' ' :: collapseWSAux fuel (cs.dropWhile isWS)
    else c :: collapseWSAux fuel cs

/-- JS `replace` of the whitespace-run regex with a single space. -/
def collapseWS (s : Str) : Str :=
  collapseWSAux s.length s

/-- The emoji/pictograph ranges stripped by the emoji regex of the source. -/
def emojiRanges : List (Nat × Nat) :=
  [(0x1F600, 0x1F64F), (0x1F300, 0x1F5FF), (0x1F680, 0x1F6FF),
   (0x1F700, 0x1F77F), (0x1F780, 0x1F7FF), (0x1F800, 0x1F8FF),
   (0x1F900, 0x1F9FF), (0x1FA00, 0x1FA6F), (0x1FA70, 0x1FAFF),
   (0x2600, 0x26FF), (0x2700, 0x27BF), (0x1F1E6, 0x1F1FF)]

/-- Membership in the emoji deny-list. -/
def isEmoji (c : Char) : Bool :=
  emojiRanges.any fun r => decide (r.1 ≤ c.toNat) && decide (c.toNat ≤ r.2)

/-- The `replacements` table of the source (dashes, underscore, curly quotes,
acute/backtick, brackets, pipe, slash, hash, arrows), in insertion order.
Quote-like characters are written via their code points. -/
def charReplacements : List (Char × Char) :=
  [(Char.ofNat 0x2013, '-'), (Char.ofNat 0x2011, '-'), (Char.ofNat 0x2014, '-'),
   ('_', ' '),
   (Char.ofNat 0x201C, Char.ofNat 34), (Char.ofNat 0x201D, Char.ofNat 34),
   (Char.ofNat 0x2018, Char.ofNat 39), (Char.ofNat 0x2019, Char.ofNat 39),
   (Char.ofNat 0xB4, Char.ofNat 39), (Char.ofNat 96, Char.ofNat 39),
   ('[', ' '), (']', ' '), ('|', ' '), ('/', ' '), ('#', ' '),
   (Char.ofNat 0x2192, ' '), (Char.ofNat 0x2190, ' ')]

/-- Sequential `replaceAll` over `charReplacements` (single-character
patterns, so each pass is a character map). -/
def applyCharReplacements (s : Str) : Str :=
  charReplacements.foldl (fun t kv => t.map fun c => if c = kv.1 then kv.2 else c) s

/-- The decorative-symbol deny-list of the source: heart, white star, heart
outline, copyright sign, backslash. -/
def specialSymbols : List Char :=
  [Char.ofNat 0x2665, Char.ofNat 0x2606, Char.ofNat 0x2661,
   Char.ofNat 0xA9, Char.ofNat 92]

/-- JS `replace` of the special-symbol class with the empty string. -/
def removeSpecialSymbols (s : Str) : Str :=
  s.filter fun c => !(specialSymbols.contains c)

/-- The `exprReplacements` table of the source, in insertion order. -/
def exprReplacements : List (Str × Str) :=
  [("@".data, " at ".data),
   ("e.g.,".data, "for example, ".data),
   ("i.e.,".data, "that is, ".data)]

/-- Sequential `replaceAll` over `exprReplacements`. -/
def applyExprReplacements (s : Str) : Str :=
  exprReplacements.foldl (fun t kv => replaceAllStr kv.1 kv.2 t) s

/-- The seven space-before-punctuation fixes, in source order; the last
pattern is space followed by an apostrophe (code point 39). -/
def spacingFixes : List (Str × Str) :=
  [([' ', ','], [',']), ([' ', '.'], ['.']), ([' ', '!'], ['!']),
   ([' ', '?'], ['?']), ([' ', ';'], [';']), ([' ', ':'], [':']),
   ([' ', Char.ofNat 39], [Char.ofNat 39])]

/-- Sequential global replace over `spacingFixes`. -/
def applySpacingFixes (s : Str) : Str :=
  spacingFixes.foldl (fun t kv => replaceAllStr kv.1 kv.2 t) s

/-- The terminal punctuation/closing characters accepted at the end of a
normalized string (the class of the final regex test in the source):
`. ! ? ; : ,`, apostrophe, double quote, `) ] }`, horizontal ellipsis,
ideographic full stop, CJK closing quotes/brackets, single/double
right-pointing angle quotes. -/
def terminalChars : List Char :=
  ['.', '!', '?', ';', ':', ',', Char.ofNat 39, Char.ofNat 34, ')', ']',
   Char.ofNat 125, Char.ofNat 0x2026, Char.ofNat 0x3002, Char.ofNat 0x300D,
   Char.ofNat 0x300F, Char.ofNat 0x3011, Char.ofNat 0x3009, Char.ofNat 0x300B,
   Char.ofNat 0x203A, Char.ofNat 0xBB]

/-- The supported language tags (`AVAILABLE_LANGS` in the source). -/
def AVAILABLE_LANGS : List Str :=
  ["en".data, "ko".data, "es".data, "pt".data, "fr".data]

/-- `isValidLang` from the source. -/
def isValidLang (lang : Str) : Bool :=
  AVAILABLE_LANGS.contains lang

/-- Modelled from the spec: the JS engine function `String.prototype.normalize` with NFKD
(Unicode compatibility decomposition), an environment capability whose full
decomposition table is not part of this repository.  NFKD acts as the
identity on every character appearing in the concrete inputs of this
development (all ASCII, which NFKD leaves unchanged), so it is modelled as
the identity map; theorems that do not depend on the decomposition table
instead quantify over an arbitrary `nfkd : Str → Str`. -/
def nfkdId (s : Str) : Str := s

/-- Steps 1-9 of `UnicodeProcessor.preprocessText` (everything before the
language check and tag wrapping), parameterized by the NFKD capability. -/
def cleanupText (nfkd : Str → Str) (text : Str) : Str :=
  let t1 := nfkd text
  let t2 := t1.filter fun c => !(isEmoji c)
  let t3 := applyCharReplacements t2
  let t4 := removeSpecialSymbols t3
  let t5 := applyExprReplacements t4
  let t6 := applySpacingFixes t5
  let t7 := collapsePair (Char.ofNat 34) t6
  let t8 := collapsePair (Char.ofNat 39) t7
  let t9 := collapsePair (Char.ofNat 96) t8
  let t10 := trimStr (collapseWS t9)
  if t10.getLast?.elim false (fun c => terminalChars.contains c) then t10
  else t10 ++ ['.']

/-- The language open tag `<lang>`. -/
def openTag (lang : Str) : Str := '<' :: lang ++ ['>']

/-- The language close tag `</lang>`. -/
def closeTag (lang : Str) : Str := '<' :: '/' :: lang ++ ['>']

instance exceptDecEq {α β : Type} [DecidableEq α] [DecidableEq β] :
    DecidableEq (Except α β) := fun x y =>
  match x, y with
  | .ok a, .ok b =>
    if h : a = b then isTrue (by rw [h])
    else isFalse fun he => h (Except.ok.inj he)
  | .error a, .error b =>
    if h : a = b then isTrue (by rw [h])
    else isFalse fun he => h (Except.error.inj he)
  | .ok _, .error _ => isFalse fun he => Except.noConfusion he
  | .error _, .ok _ => isFalse fun he => Except.noConfusion he

/-- `UnicodeProcessor.preprocessText`: cleanup, language validation (an
invalid language throws), then wrapping in `<lang>...</lang>`. -/
def preprocessText (nfkd : Str → Str) (text lang : Str) : Except String Str :=
  let t := cleanupText nfkd text
  if isValidLang lang then .ok (openTag lang ++ t ++ closeTag lang)
  else .error ("Invalid language: " ++ String.mk lang)

/-- Does the maximal leading whitespace run of the string contain a
newline?  Used to decide whether the paragraph-break regex `\n\s*\n+`
can match starting at a given newline. -/
def wsRunHasNL : Str → Bool
  | [] => false
  | c :: cs => isWS c && (c = Char.ofNat 10 || wsRunHasNL cs)

/-- Index of the last newline inside a whitespace run (the run is known
to contain one); measured from the front of the run. -/
def lastIdxNL (run : Str) : Nat :=
  run.length - 1 - (run.reverse.findIdx fun c => c = Char.ofNat 10)

/-- Remainder of the string after a `\n\s*\n+` paragraph-break match:
`cs` is what follows the newline at the match start; greedy matching
with backtracking consumes through the last newline of the leading
whitespace run. -/
def afterParaMatch (cs : Str) : Str :=
  let run := cs.takeWhile isWS
  run.drop (lastIdxNL run + 1) ++ cs.drop run.length

/-- Recursion core of `splitParas`: `acc` is the reversed current piece,
the fuel (initially the string length, an upper bound on the scanning
steps) keeps the recursion structural. -/
def splitParasAux : Nat → Str → Str → List Str
  | _, acc, [] => [acc.reverse]
  | 0, acc, rem => [acc.reverse ++ rem]
  | fuel + 1, acc, c :: cs =>
    if c = Char.ofNat 10 && wsRunHasNL cs then
      acc.reverse :: splitParasAux fuel [] (afterParaMatch cs)
    else splitParasAux fuel (c :: acc) cs

/-- JS `split(/\n\s*\n+/)`: split into paragraph candidates at whitespace
runs that contain at least two newlines. -/
def splitParas (s : Str) : List Str :=
  splitParasAux s.length [] s

/-- The abbreviation deny-list of the sentence-boundary regex. -/
def sentenceAbbrevs : List Str :=
  ["Mr.".data, "Mrs.".data, "Ms.".data, "Dr.".data, "Prof.".data, "Sr.".data,
   "Jr.".data, "Ph.D.".data, "etc.".data, "e.g.".data, "i.e.".data, "vs.".data,
   "Inc.".data, "Ltd.".data, "Co.".data, "Corp.".data, "St.".data, "Ave.".data,
   "Blvd.".data]

/-- The regex `\w` word-character class. -/
def isWordChar (c : Char) : Bool :=
  ('a' ≤ c && c ≤ 'z') || ('A' ≤ c && c ≤ 'Z') || ('0' ≤ c && c ≤ '9') || c = '_'

/-- The lookbehind `(?<=\b[A-Z]\.)` evaluated on the reversed prefix
before the candidate split position: the prefix ends with a single
capital-letter initial followed by a period. -/
def initialBefore : Str → Bool
  | c :: d :: rest =>
    c = '.' && ('A' ≤ d && d ≤ 'Z') &&
      (match rest with
       | [] => true
       | r :: _ => !isWordChar r)
  | _ => false

/-- The full zero-width condition of the sentence-boundary regex at a
candidate position: current character is whitespace, preceded by `.`/`!`/`?`,
and the preceding text ends neither with a listed abbreviation nor with a
capital-letter initial.  `acc` is the reversed prefix before the position. -/
def sentenceSplitPoint (acc : Str) (c : Char) : Bool :=
  isWS c &&
  (match acc with
   | p :: _ => p = '.' || p = '!' || p = '?'
   | [] => false) &&
  !(sentenceAbbrevs.any fun a => a.reverse.isPrefixOf acc) &&
  !(initialBefore acc)

/-- Recursion core of `splitSentences` (fuel as in `splitParasAux`). -/
def splitSentencesAux : Nat → Str → Str → List Str
  | _, acc, [] => [acc.reverse]
  | 0, acc, rem => [acc.reverse ++ rem]
  | fuel + 1, acc, c :: cs =>
    if sentenceSplitPoint acc c then
      acc.reverse :: splitSentencesAux fuel [] (cs.dropWhile isWS)
    else splitSentencesAux fuel (c :: acc) cs

/-- The sentence-boundary split
`split(/(?<!Mr\.|...)(?<!\b[A-Z]\.)(?<=[.!?])\s+/)` from `chunkText`. -/
def splitSentences (s : Str) : List Str :=
  splitSentencesAux s.length [] s

/-- The greedy sentence-packing loop of `chunkText`: pack sentences into
`cur` while the joined length fits in `maxLen`, flushing (trimmed) on
overflow and at the end. -/
def packSentences (maxLen : Nat) : List Str → Str → List Str
  | [], cur => if cur.isEmpty then [] else [trimStr cur]
  | s :: ss, cur =>
    if cur.length + s.length + 1 ≤ maxLen then
      packSentences maxLen ss (if cur.isEmpty then s else cur ++ ' ' :: s)
    else
      (if cur.isEmpty then [] else [trimStr cur]) ++ packSentences maxLen ss s

/-- Per-paragraph body of the outer loop of `chunkText`. -/
def processParagraph (maxLen : Nat) (paragraph : Str) : List Str :=
  let tp := trimStr paragraph
  if tp.isEmpty then [] else packSentences maxLen (splitSentences tp) []

/-- `chunkText` on an actual string: trim, split into paragraphs, drop
whitespace-only paragraphs, then sentence-split and greedily pack each
paragraph; chunk order follows document order. -/
def chunkText (text : Str) (maxLen : Nat) : List Str :=
  ((splitParas (trimStr text)).filter fun p => !(trimStr p).isEmpty).flatMap
    fun p => processParagraph maxLen p

/-- A JS value as far as the `typeof` check in `chunkText` observes it: a
string, or a non-string carrying its `typeof` tag. -/
inductive JSValue where
  | str : Str → JSValue
  | nonString : String → JSValue

/-- The full `chunkText` entry point including the dynamic type check
(`throw new Error` with message `chunkText expects a string, got ...`). -/
def chunkTextJS : JSValue → Nat → Except String (List Str)
  | .str s, maxLen => .ok (chunkText s maxLen)
  | .nonString t, _ => .error ("chunkText expects a string, got " ++ t)

/-- The per-code-point vocabulary lookup of `UnicodeProcessor.call`:
code points inside the indexer range read the table, points beyond it
map to the `-1` unknown sentinel. -/
def lookupIndexer (indexer : List Int) (c : Char) : Int :=
  if c.toNat < indexer.length then indexer.getD c.toNat 0 else -1

/-- The `textList.map((text, i) => preprocessText(text, langList[i]))`
step; a missing language entry behaves like an invalid language (throws). -/
def mapProcess (nfkd : Str → Str) (langList : List Str) :
    Nat → List Str → Except String (List Str)
  | _, [] => .ok []
  | i, t :: ts => do
    let p ← preprocessText nfkd t (langList.getD i [])
    let rest ← mapProcess nfkd langList (i + 1) ts
    .ok (p :: rest)

/-- The `maxLen || Math.max(...lengths)` falsy check of `lengthToMask`:
a `null` or `0` max-length argument falls back to the maximum of the
lengths. -/
def actualMax (lengths : List Nat) (maxLen : Option Nat) : Nat :=
  match maxLen with
  | none => lengths.foldr max 0
  | some m => if m = 0 then lengths.foldr max 0 else m

/-- `UnicodeProcessor.lengthToMask`: rows of `1.0` up to
`min(len, actualMaxLen)` then `0.0`, each wrapped in a singleton middle
dimension. -/
def uLengthToMask (lengths : List Nat) (maxLen : Option Nat) :
    List (List (List ℚ)) :=
  lengths.map fun len =>
    [(List.range (actualMax lengths maxLen)).map fun j =>
      if j < min len (actualMax lengths maxLen) then (1 : ℚ) else 0]

/-- `UnicodeProcessor.getTextMask`. -/
def getTextMask (lengths : List Nat) : List (List (List ℚ)) :=
  uLengthToMask lengths (some (lengths.foldr max 0))

/-- `UnicodeProcessor.call`: preprocess every text, map code points
through the indexer into rows right-padded with `0` to the batch maximum
length, and build the validity mask. -/
def procCall (nfkd : Str → Str) (indexer : List Int)
    (textList langList : List Str) :
    Except String (List (List Int) × List (List (List ℚ))) := do
  let processedTexts ← mapProcess nfkd langList 0 textList
  let textIdsLengths := processedTexts.map List.length
  let maxLen := textIdsLengths.foldr max 0
  let textIds := processedTexts.map fun t =>
    (List.range maxLen).map fun j =>
      if j < t.length then lookupIndexer indexer (t.getD j ' ') else 0
  .ok (textIds, getTextMask textIdsLengths)

/-- A numeric tensor as the engine observes it: shape plus flat data. -/
structure Tensor where
  dims : List Nat
  data : List ℚ
deriving DecidableEq

/-- `Style`: the pair of voice-embedding tensors. -/
structure Style where
  ttl : Tensor
  dp : Tensor
deriving DecidableEq

/-- The fields of `tts.json` used by the pipeline. -/
structure TTSConfig where
  sample_rate : Nat
  base_chunk_size : Nat
  chunk_compress_factor : Nat
  latent_dim : Nat
deriving DecidableEq

/-- A (batch × dim × time) latent grid. -/
abbrev Latent := List (List (List ℚ))

/-- The falsy max-length fallback of `TextToSpeech.lengthToMask`. -/
def actualMaxI (lengths : List Int) (maxLen : Option Int) : Int :=
  match maxLen with
  | none => lengths.foldr max 0
  | some m => if m = 0 then lengths.foldr max 0 else m

/-- `TextToSpeech.lengthToMask` (same code as in the processor, but applied
to latent lengths, which are integers derived from durations). -/
def ttsLengthToMask (lengths : List Int) (maxLen : Option Int) :
    List (List (List ℚ)) :=
  lengths.map fun len =>
    [(List.range (actualMaxI lengths maxLen).toNat).map fun (j : Nat) =>
      if (j : Int) < min len (actualMaxI lengths maxLen) then (1 : ℚ) else 0]

/-- The latent length for a given waveform length in samples:
`Math.floor((wavLen + chunkSize - 1) / chunkSize)` computed in exact
arithmetic. -/
def latentLenOf (wavLen : Int) (chunkSize : Nat) : Int :=
  Int.floor (((wavLen + chunkSize - 1 : Int) : ℚ) / (chunkSize : ℚ))

/-- JS `Math.max(...)` over a non-empty rational list. -/
def listMaxQ (l : List ℚ) : ℚ := l.foldr max (l.headD 0)

/-- Result of `TextToSpeech.sampleNoisyLatent`. -/
structure LatentResult where
  xt : Latent
  latentMask : List (List (List ℚ))
deriving DecidableEq

/-- `TextToSpeech.sampleNoisyLatent`.  The Box-Muller draws are modelled
by the `noise` capability (indexed by batch, dim and time position, the
order the source consumes `Math.random()` pairs); the subsequent masking
multiplies each entry by its mask value exactly as the in-place
loop of the source does. -/
def sampleNoisyLatent (noise : Nat → Nat → Nat → ℚ) (duration : List ℚ)
    (sampleRate baseChunkSize chunkCompress latentDim : Nat) : LatentResult :=
  let bsz := duration.length
  let maxDur := listMaxQ duration
  let wavLenMax : Int := Int.floor (maxDur * (sampleRate : ℚ))
  let wavLengths : List Int := duration.map fun d => Int.floor (d * (sampleRate : ℚ))
  let chunkSize := baseChunkSize * chunkCompress
  let latentLen : Int := latentLenOf wavLenMax chunkSize
  let latentDimVal := latentDim * chunkCompress
  let xt0 : Latent := (List.range bsz).map fun b =>
    (List.range latentDimVal).map fun d =>
      (List.range latentLen.toNat).map fun t => noise b d t
  let latentLengths := wavLengths.map fun len => latentLenOf len chunkSize
  let latentMask := ttsLengthToMask latentLengths (some latentLen)
  let xt : Latent := (List.range bsz).map fun b =>
    (List.range latentDimVal).map fun d =>
      (List.range latentLen.toNat).map fun t =>
        (((xt0.getD b []).getD d []).getD t 0) *
          (((latentMask.getD b []).getD 0 []).getD t 0)
  ⟨xt, latentMask⟩

/-- The four external model-invocation capabilities, as pure functions
(per the concurrency model the backends are stateless and pure from the
perspective of the caller).  `vectorEstRun` receives the current latent, text
embedding, style, both masks and the current/total step scalars and
returns the flat denoised data; `vocoderRun` returns the waveform. -/
structure ModelFns where
  dpRun : List (List Int) → Tensor → List (List (List ℚ)) → List ℚ
  textEncRun : List (List Int) → Tensor → List (List (List ℚ)) → List ℚ
  vectorEstRun : Latent → List ℚ → Tensor → List (List (List ℚ)) →
    List (List (List ℚ)) → Int → Int → List ℚ
  vocoderRun : Latent → List ℚ

/-- The flat-to-3D reshape after each vector-estimator call (row-major:
batch, then dim, then time, matching the sequential index of the source). -/
def reshape3 (bsz dim len : Nat) (flat : List ℚ) : Latent :=
  (List.range bsz).map fun b =>
    (List.range dim).map fun d =>
      (List.range len).map fun t => flat.getD ((b * dim + d) * len + t) 0

/-- The denoising loop of `TextToSpeech._infer`: at 0-indexed step `s`
the progress callback (when supplied) is invoked with `(s+1, total)`
before the computation of the step; a callback exception propagates.  The
returned list is the instrumented trace of callback invocations, in
order. -/
def denoiseSteps (cb : Option (Nat → Int → Except String Unit))
    (est : Latent → Nat → Latent) (total : Int) :
    Nat → Nat → Latent → Except String (Latent × List (Nat × Int))
  | _, 0, xt => .ok (xt, [])
  | step, n + 1, xt => do
    (match cb with
     | some f => f (step + 1) total
     | none => pure ())
    let r ← denoiseSteps cb est total (step + 1) n (est xt step)
    .ok (r.1, (step + 1, total) :: r.2)

/-- Result of `TextToSpeech._infer` (the trace field is observational
instrumentation of the callback invocations). -/
structure InferResult where
  wav : List ℚ
  duration : List ℚ
  trace : List (Nat × Int)
deriving DecidableEq

/-- `TextToSpeech._infer`: tokenize, predict durations (divided by the
speed factor), encode text, sample the masked noisy latent, run
`totalStep` denoising steps, then vocode. -/
def inferM (nfkd : Str → Str) (indexer : List Int) (cfg : TTSConfig)
    (m : ModelFns) (noise : Nat → Nat → Nat → ℚ)
    (textList langList : List Str) (style : Style) (totalStep : Int)
    (speed : ℚ) (cb : Option (Nat → Int → Except String Unit)) :
    Except String InferResult := do
  let bsz := textList.length
  let pr ← procCall nfkd indexer textList langList
  let textIds := pr.1
  let textMask := pr.2
  let duration := (m.dpRun textIds style.dp textMask).map fun d => d / speed
  let textEmb := m.textEncRun textIds style.ttl textMask
  let sampled := sampleNoisyLatent noise duration cfg.sample_rate
    cfg.base_chunk_size cfg.chunk_compress_factor cfg.latent_dim
  let est : Latent → Nat → Latent := fun xt step =>
    let dim := (xt.getD 0 []).length
    let len := ((xt.getD 0 []).getD 0 []).length
    reshape3 bsz dim len
      (m.vectorEstRun xt textEmb style.ttl sampled.latentMask textMask
        (step : Int) totalStep)
  let r ← denoiseSteps cb est totalStep 0 totalStep.toNat sampled.xt
  .ok ⟨m.vocoderRun r.1, duration, r.2⟩

/-- The inter-chunk silence inserted by `TextToSpeech.call`:
`floor(silenceDuration * sampleRate)` zero samples. -/
def silenceSamples (silenceDuration : ℚ) (sampleRate : Nat) : List ℚ :=
  List.replicate (Int.floor (silenceDuration * (sampleRate : ℚ))).toNat 0

/-- The per-chunk accumulation loop of `TextToSpeech.call`: an empty
accumulator is seeded by the incoming waveform, otherwise the silence
samples are inserted before appending, and the accumulated duration adds
the chunk duration plus the silence duration. -/
def synthLoop (infer : Str → Except String (List ℚ × List ℚ))
    (silenceDuration : ℚ) (sampleRate : Nat) :
    List Str → List ℚ → ℚ → Except String (List ℚ × ℚ)
  | [], wavCat, durCat => .ok (wavCat, durCat)
  | c :: cs, wavCat, durCat => do
    let r ← infer c
    if wavCat.isEmpty then
      synthLoop infer silenceDuration sampleRate cs r.1 (r.2.headD 0)
    else
      synthLoop infer silenceDuration sampleRate cs
        (wavCat ++ silenceSamples silenceDuration sampleRate ++ r.1)
        (durCat + r.2.headD 0 + silenceDuration)

/-- `TextToSpeech.call`: reject styles whose `ttl` batch dimension is not
1, choose the language-dependent chunk bound (120 for Korean, 300
otherwise), chunk, synthesize each chunk and concatenate. -/
def callTTS (nfkd : Str → Str) (indexer : List Int) (cfg : TTSConfig)
    (m : ModelFns) (noise : Nat → Nat → Nat → ℚ) (text lang : Str)
    (style : Style) (totalStep : Int) (speed silenceDuration : ℚ)
    (cb : Option (Nat → Int → Except String Unit)) :
    Except String (List ℚ × List ℚ) := do
  if style.ttl.dims.headD 0 ≠ 1 then
    .error "Single speaker text to speech only supports single style"
  else
    let maxLen := if lang = "ko".data then 120 else 300
    let textList := chunkText text maxLen
    let r ← synthLoop
      (fun c =>
        (inferM nfkd indexer cfg m noise [c] [lang] style totalStep speed cb).map
          fun ir => (ir.wav, ir.duration))
      silenceDuration cfg.sample_rate textList [] 0
    .ok (r.1, [r.2])

/-- Little-endian bytes of a 16-bit unsigned value (`DataView.setUint16`). -/
def u16le (n : Nat) : List Nat := [n % 256, n / 256 % 256]

/-- Little-endian bytes of a 32-bit unsigned value (`DataView.setUint32`). -/
def u32le (n : Nat) : List Nat :=
  [n % 256, n / 256 % 256, n / 65536 % 256, n / 16777216 % 256]

/-- Little-endian twos-complement bytes of a 16-bit signed value (the
`Int16Array` buffer layout). -/
def int16le (n : Int) : List Nat := u16le (n.emod 65536).toNat

/-- The quantization applied per sample by `writeWavFile`:
clamp to `[-1, 1]`, scale by `32767`, then `Math.floor` (round toward
negative infinity). -/
def wavSample (x : ℚ) : Int := Int.floor (max (-1 : ℚ) (min 1 x) * 32767)

/-- ASCII bytes of a header literal (`charCodeAt` of each character). -/
def asciiBytes (s : String) : List Nat := s.data.map Char.toNat

/-- `writeWavFile`: the canonical 44-byte mono 16-bit RIFF/WAVE header
followed by the quantized samples, as a byte list. -/
def writeWavFile (audioData : List ℚ) (sampleRate : Nat) : List Nat :=
  let dataSize := audioData.length * 2
  asciiBytes "RIFF" ++ u32le (36 + dataSize) ++ asciiBytes "WAVE" ++
  asciiBytes "fmt " ++ u32le 16 ++ u16le 1 ++ u16le 1 ++ u32le sampleRate ++
  u32le (sampleRate * 2) ++ u16le 2 ++ u16le 16 ++ asciiBytes "data" ++
  u32le dataSize ++ audioData.flatMap fun x => int16le (wavSample x)

/-- Spec-side definition, following the words of the claim: quantization that
truncates toward zero (floor for non-negative values, ceiling for
negative ones).  Compared against the `Math.floor`-based rule of the code. -/
def truncTowardZero (x : ℚ) : Int := if 0 ≤ x then ⌊x⌋ else ⌈x⌉

/-- Number of (possibly overlapping) occurrences of `pat` as a substring:
the count of suffix positions at which `pat` is a prefix. -/
def countOcc (pat : Str) : Str → Nat
  | [] => if pat.isEmpty then 1 else 0
  | c :: cs => (if pat.isPrefixOf (c :: cs) then 1 else 0) + countOcc pat cs

/-- Spec-side definition, following the words of the spec for multi-chunk
concatenation: the first waveform seeds the result and every subsequent
waveform is appended after the separator. -/
def specConcat (sep : List ℚ) : List (List ℚ) → List ℚ
  | [] => []
  | w :: ws => w ++ ws.flatMap fun v => sep ++ v

/-- The sentences `chunkText` feeds its greedy packing loop: the
sentence-boundary split of every trimmed kept paragraph, in order. -/
def allSentences (text : Str) : List Str :=
  ((splitParas (trimStr text)).filter fun p => !(trimStr p).isEmpty).flatMap
    fun p => splitSentences (trimStr p)

/-! ### Claim theorems -/

theorem length_u32le (n : Nat) : (u32le n).length = 4 := rfl

theorem length_u16le (n : Nat) : (u16le n).length = 2 := rfl

theorem length_int16le (n : Int) : (int16le n).length = 2 := rfl

theorem writeWavFile_drop44 (a : List ℚ) (r : Nat) :
    (writeWavFile a r).drop 44 = a.flatMap fun x => int16le (wavSample x) := by
  have h : writeWavFile a r =
      (asciiBytes "RIFF" ++ u32le (36 + a.length * 2) ++ asciiBytes "WAVE" ++
       asciiBytes "fmt " ++ u32le 16 ++ u16le 1 ++ u16le 1 ++ u32le r ++
       u32le (r * 2) ++ u16le 2 ++ u16le 16 ++ asciiBytes "data" ++
       u32le (a.length * 2)) ++ (a.flatMap fun x => int16le (wavSample x)) := by
    simp [writeWavFile, List.append_assoc]
  rw [h, List.drop_left']
  simp [List.length_append, length_u32le, length_u16le, asciiBytes]

theorem flatMap_int16_take (l : List ℚ) :
    ∀ (i : Nat), i < l.length →
      ((l.flatMap fun x => int16le (wavSample x)).drop (2 * i)).take 2 =
        int16le (wavSample (l.getD i 0)) := by
  induction l with
  | nil => intro i h; simp at h
  | cons x xs ih =>
    intro i h
    cases i with
    | zero =>
      simp only [Nat.mul_zero, List.drop_zero, List.flatMap_cons, List.getD_cons_zero]
      rw [List.take_left' (length_int16le _)]
    | succ n =>
      have h2 : 2 * (n + 1) = 2 + 2 * n := by ring
      rw [List.flatMap_cons, h2, ← List.drop_drop, List.drop_left' (length_int16le _),
        List.getD_cons_succ]
      exact ih n (by simpa using h)

/-- C1 counterexample: normalization is not idempotent.  At `t = "Hello"`,
`L = "en"`, the first application yields `<en>Hello.</en>`, but normalizing
that output again does not return it unchanged (the slash of the inner
closing tag is replaced by a space, a period is appended, and a second
pair of tags is wrapped around the result). -/
theorem c1_counterexample :
    preprocessText nfkdId "Hello".data "en".data = .ok "<en>Hello.</en>".data ∧
    preprocessText nfkdId "<en>Hello.</en>".data "en".data ≠
      .ok "<en>Hello.</en>".data :=
  ⟨by decide, by decide⟩

/-- C1 (amended): normalization is not idempotent.  Re-normalizing a
normalized string replaces the `/` of its closing language tag with a
space (the slash-to-space substitution), appends a period (the result now
ends in `>`), and wraps the result in a second pair of language tags:
normalize("Hello","en") = `<en>Hello.</en>` while normalizing that output
yields `<en><en>Hello.< en>.</en>`. -/
theorem c1_amended :
    preprocessText nfkdId "Hello".data "en".data = .ok "<en>Hello.</en>".data ∧
    preprocessText nfkdId "<en>Hello.</en>".data "en".data =
      .ok "<en><en>Hello.< en>.</en>".data :=
  ⟨by decide, by decide⟩

/-- C3 counterexample: the WAV encoder does not truncate toward zero.
For the sample `-1/2` the product after clamping is `-16383.5`; the bytes
actually written are the little-endian encoding of `-16384`
(`Math.floor`, toward negative infinity), not of the toward-zero
truncation `-16383`. -/
theorem c3_counterexample :
    ((writeWavFile [-(1 : ℚ)/2] 16000).drop 44).take 2 = [0, 192] ∧
    int16le (truncTowardZero (max (-1 : ℚ) (min 1 (-(1 : ℚ)/2)) * 32767)) =
      [1, 192] ∧
    ([0, 192] : List Nat) ≠ [1, 192] :=
  ⟨by decide, by decide, by decide⟩

/-- C3 (amended): for every input sample sequence, the WAV encoder
quantizes each float sample by first clamping it to `[-1, 1]`, then
multiplying by `32767`, then rounding the product toward negative
infinity (`Math.floor`, not truncation toward zero) to obtain the 16-bit
little-endian twos-complement word written to the data chunk. -/
theorem c3_wav_data_words (a : List ℚ) (r : Nat) (i : Nat) (h : i < a.length) :
    ((writeWavFile a r).drop (44 + 2 * i)).take 2 =
      int16le (Int.floor (max (-1 : ℚ) (min 1 (a.getD i 0)) * 32767)) := by
  have hd : (writeWavFile a r).drop (44 + 2 * i) =
      ((writeWavFile a r).drop 44).drop (2 * i) := by
    rw [List.drop_drop]
  rw [hd, writeWavFile_drop44]
  have := flatMap_int16_take a i h
  simpa [wavSample] using this

/-- C3 witness: the amended theorem applied at the concrete one-sample
buffer `[-1/2]`. -/
theorem c3_witness :
    0 < ([-(1 : ℚ)/2] : List ℚ).length ∧
    ((writeWavFile [-(1 : ℚ)/2] 16000).drop (44 + 2 * 0)).take 2 =
      int16le (Int.floor (max (-1 : ℚ)
        (min 1 (([-(1 : ℚ)/2] : List ℚ).getD 0 0)) * 32767)) :=
  ⟨by decide, c3_wav_data_words [-(1 : ℚ)/2] 16000 0 (by decide)⟩

theorem mem_dropWhile_of_not (l : Str) (c : Char) (hc : c ∈ l)
    (hnc : isWS c = false) : c ∈ l.dropWhile isWS := by
  have ht := List.takeWhile_append_dropWhile isWS l
  rw [← ht] at hc
  rcases List.mem_append.mp hc with h | h
  · have := List.mem_takeWhile_imp h
    rw [hnc] at this
    exact absurd this (by simp)
  · exact h

theorem mem_trimStr (s : Str) (c : Char) (hc : c ∈ s) (hnc : isWS c = false) :
    c ∈ trimStr s := by
  unfold trimStr
  have h1 := mem_dropWhile_of_not s c hc hnc
  have h2 : c ∈ (s.dropWhile isWS).reverse := List.mem_reverse.mpr h1
  have h3 := mem_dropWhile_of_not _ c h2 hnc
  exact List.mem_reverse.mpr h3

theorem trimStr_ne_nil {s : Str} (h : ∃ c ∈ s, isWS c = false) :
    trimStr s ≠ [] := by
  rcases h with ⟨c, hc, hcws⟩
  intro he
  exact List.not_mem_nil c (he ▸ mem_trimStr s c hc hcws)

theorem packSentences_ne_nil (maxLen : Nat) :
    ∀ (ss : List Str) (cur : Str), cur ≠ [] →
      packSentences maxLen ss cur ≠ [] := by
  intro ss
  induction ss with
  | nil =>
    intro cur hcur
    simp [packSentences, List.isEmpty_iff, hcur]
  | cons s ss ih =>
    intro cur hcur
    rw [packSentences]
    by_cases hfit : cur.length + s.length + 1 ≤ maxLen
    · rw [if_pos hfit]
      apply ih
      simp [List.isEmpty_iff, hcur]
    · rw [if_neg hfit]
      simp [List.isEmpty_iff, hcur]

theorem packSentences_cons_ne_nil (maxLen : Nat) (s : Str) (ss : List Str)
    (hs : s ≠ []) : packSentences maxLen (s :: ss) [] ≠ [] := by
  rw [packSentences]
  by_cases hfit : ([] : Str).length + s.length + 1 ≤ maxLen
  · rw [if_pos hfit]
    exact packSentences_ne_nil maxLen ss _ (by simpa [List.isEmpty_iff] using hs)
  · rw [if_neg hfit]
    simpa [List.isEmpty_iff] using packSentences_ne_nil maxLen ss s hs

theorem splitSentencesAux_head_ne :
    ∀ (fuel : Nat) (rem acc : Str), acc ≠ [] →
      ∃ p ps, splitSentencesAux fuel acc rem = p :: ps ∧ p ≠ [] := by
  intro fuel
  induction fuel with
  | zero =>
    intro rem acc hacc
    cases rem with
    | nil => exact ⟨acc.reverse, [], rfl, by simpa using hacc⟩
    | cons c cs => exact ⟨acc.reverse ++ c :: cs, [], rfl, by simp⟩
  | succ n ih =>
    intro rem acc hacc
    cases rem with
    | nil => exact ⟨acc.reverse, [], rfl, by simpa using hacc⟩
    | cons c cs =>
      by_cases hsp : sentenceSplitPoint acc c = true
      · refine ⟨acc.reverse, splitSentencesAux n [] (cs.dropWhile isWS),
          ?_, by simpa using hacc⟩
        simp [splitSentencesAux, hsp]
      · rcases ih cs (c :: acc) (by simp) with ⟨p, ps, hps, hp⟩
        exact ⟨p, ps, by simp [splitSentencesAux, hsp, hps], hp⟩

theorem splitSentences_head_ne (s : Str) (hs : s ≠ []) :
    ∃ p ps, splitSentences s = p :: ps ∧ p ≠ [] := by
  cases s with
  | nil => exact absurd rfl hs
  | cons c cs =>
    have h0 : sentenceSplitPoint [] c = false := by simp [sentenceSplitPoint]
    rw [splitSentences]
    simp only [List.length_cons, splitSentencesAux, h0]
    simpa using splitSentencesAux_head_ne cs.length cs [c] (by simp)

theorem processParagraph_ne_nil (maxLen : Nat) (p : Str)
    (hp : trimStr p ≠ []) : processParagraph maxLen p ≠ [] := by
  rcases splitSentences_head_ne (trimStr p) hp with ⟨p0, ps, hps, hp0⟩
  have hne : ¬((trimStr p).isEmpty = true) := by simp [List.isEmpty_iff, hp]
  rw [processParagraph, if_neg hne, hps]
  exact packSentences_cons_ne_nil maxLen p0 ps hp0

theorem drop_length_takeWhile (p : Char → Bool) (l : Str) :
    l.drop (l.takeWhile p).length = l.dropWhile p := by
  have h : (l.takeWhile p ++ l.dropWhile p).drop (l.takeWhile p).length =
      l.dropWhile p :=
    List.drop_left' rfl
  rw [List.takeWhile_append_dropWhile] at h
  exact h

theorem mem_afterParaMatch (cs : Str) (d : Char) (hd : d ∈ cs)
    (hnd : isWS d = false) : d ∈ afterParaMatch cs := by
  have ht := List.takeWhile_append_dropWhile isWS cs
  rw [← ht] at hd
  rcases List.mem_append.mp hd with h | h
  · have := List.mem_takeWhile_imp h
    rw [hnd] at this
    exact absurd this (by simp)
  · rw [afterParaMatch]
    refine List.mem_append.mpr (Or.inr ?_)
    rw [drop_length_takeWhile]
    exact h

theorem splitParasAux_exists :
    ∀ (fuel : Nat) (rem acc : Str), (∃ c ∈ acc ++ rem, isWS c = false) →
      ∃ p ∈ splitParasAux fuel acc rem, ∃ c ∈ p, isWS c = false := by
  intro fuel
  induction fuel with
  | zero =>
    intro rem acc h
    rcases h with ⟨c, hc, hcw⟩
    cases rem with
    | nil =>
      refine ⟨acc.reverse, by simp [splitParasAux], c, ?_, hcw⟩
      simpa using (by simpa using hc : c ∈ acc)
    | cons x xs =>
      refine ⟨acc.reverse ++ x :: xs, by simp [splitParasAux], c, ?_, hcw⟩
      rcases List.mem_append.mp hc with h | h
      · exact List.mem_append.mpr (Or.inl (by simpa using h))
      · exact List.mem_append.mpr (Or.inr h)
  | succ n ih =>
    intro rem acc h
    cases rem with
    | nil =>
      rcases h with ⟨c, hc, hcw⟩
      refine ⟨acc.reverse, by simp [splitParasAux], c, ?_, hcw⟩
      simpa using (by simpa using hc : c ∈ acc)
    | cons x xs =>
      by_cases hsp : (x = Char.ofNat 10 && wsRunHasNL xs) = true
      · rcases h with ⟨c, hc, hcw⟩
        have hx10 : x = Char.ofNat 10 := by
          have h1 := (Bool.and_eq_true _ _).mp hsp
          exact decide_eq_true_eq.mp h1.1
        rcases List.mem_append.mp hc with hmem | hmem
        · exact ⟨acc.reverse, by simp [splitParasAux, hsp], c,
            by simpa using hmem, hcw⟩
        · rcases List.mem_cons.mp hmem with hcx | hcx
          · subst hcx
            rw [hx10] at hcw
            exact absurd hcw (by decide)
          · rcases ih (afterParaMatch xs) []
              ⟨c, by simpa using mem_afterParaMatch xs c hcx hcw, hcw⟩ with
              ⟨p, hp, hex⟩
            exact ⟨p, by simp [splitParasAux, hsp]; exact Or.inr hp, hex⟩
      · rcases h with ⟨c, hc, hcw⟩
        have hmem : c ∈ (x :: acc) ++ xs := by
          rcases List.mem_append.mp hc with h1 | h1
          · simp [h1]
          · rcases List.mem_cons.mp h1 with h2 | h2
            · simp [h2]
            · simp [h2]
        rcases ih xs (x :: acc) ⟨c, hmem, hcw⟩ with ⟨p, hp, hex⟩
        exact ⟨p, by simp [splitParasAux, hsp]; exact hp, hex⟩

theorem chunkText_ne_nil (s : Str) (maxLen : Nat)
    (h : ∃ c ∈ s, isWS c = false) : chunkText s maxLen ≠ [] := by
  rcases h with ⟨c, hc, hcw⟩
  have hct : c ∈ trimStr s := mem_trimStr s c hc hcw
  rcases splitParasAux_exists (trimStr s).length (trimStr s) []
    ⟨c, by simpa using hct, hcw⟩ with ⟨p, hp, d, hd, hdw⟩
  intro hnil
  rw [chunkText] at hnil
  rw [List.flatMap_eq_nil_iff] at hnil
  have hpf : p ∈ (splitParas (trimStr s)).filter fun q => !(trimStr q).isEmpty := by
    refine List.mem_filter.mpr ⟨hp, ?_⟩
    simp [List.isEmpty_iff, trimStr_ne_nil ⟨d, hd, hdw⟩]
  exact processParagraph_ne_nil maxLen p
    (trimStr_ne_nil ⟨d, hd, hdw⟩) (hnil p hpf)

/-- C4 counterexample: for the (string) input `""` chunking returns the
empty list, refuting the claim that every string input yields a
non-empty list of chunks. -/
theorem c4_counterexample : chunkTextJS (JSValue.str []) 300 = .ok [] := by
  decide

/-- C4 (amended): chunking a string containing at least one
non-whitespace character returns a non-empty ordered list (empty and
whitespace-only strings yield the empty list); a non-string input throws
an `Error` whose message names the offending `typeof` tag. -/
theorem c4_amended :
    (∀ (s : Str) (maxLen : Nat), (∃ c ∈ s, isWS c = false) →
      chunkTextJS (JSValue.str s) maxLen ≠ .ok []) ∧
    (∀ (tag : String) (maxLen : Nat),
      chunkTextJS (JSValue.nonString tag) maxLen =
        .error ("chunkText expects a string, got " ++ tag)) := by
  constructor
  · intro s maxLen h hok
    exact chunkText_ne_nil s maxLen h (Except.ok.inj hok)
  · intro tag maxLen
    rfl

/-- C4 witness: the amended theorem applied at the concrete inputs
`"Hi. Bye."` (non-whitespace string) and a number-typed value. -/
theorem c4_witness :
    ((∃ c ∈ "Hi. Bye.".data, isWS c = false) ∧
      chunkTextJS (JSValue.str "Hi. Bye.".data) 300 ≠ .ok []) ∧
    chunkTextJS (JSValue.nonString "number") 300 =
      .error "chunkText expects a string, got number" :=
  ⟨⟨by decide, c4_amended.1 "Hi. Bye.".data 300 (by decide)⟩,
    c4_amended.2 "number" 300⟩

theorem length_trimStr_le (s : Str) : (trimStr s).length ≤ s.length := by
  unfold trimStr
  rw [List.length_reverse]
  calc ((s.dropWhile isWS).reverse.dropWhile isWS).length
      ≤ (s.dropWhile isWS).reverse.length := length_dropWhile_le _ _
    _ = (s.dropWhile isWS).length := List.length_reverse _
    _ ≤ s.length := length_dropWhile_le _ _

theorem packSentences_length_le (maxLen : Nat) :
    ∀ (ss : List Str) (cur : Str), (∀ s ∈ ss, s.length ≤ maxLen) →
      cur.length ≤ maxLen →
      ∀ c ∈ packSentences maxLen ss cur, c.length ≤ maxLen := by
  intro ss
  induction ss with
  | nil =>
    intro cur _ hcur c hc
    rw [packSentences] at hc
    by_cases h : cur.isEmpty = true
    · rw [if_pos h] at hc
      exact absurd hc (List.not_mem_nil c)
    · rw [if_neg h] at hc
      rcases List.mem_singleton.mp hc with rfl
      exact le_trans (length_trimStr_le cur) hcur
  | cons s ss ih =>
    intro cur hss hcur c hc
    rw [packSentences] at hc
    by_cases hfit : cur.length + s.length + 1 ≤ maxLen
    · rw [if_pos hfit] at hc
      refine ih _ (fun t ht => hss t (List.mem_cons_of_mem s ht)) ?_ c hc
      by_cases hemp : cur.isEmpty = true
      · rw [if_pos hemp]
        exact hss s (List.mem_cons_self s ss)
      · rw [if_neg hemp]
        simp only [List.length_append, List.length_cons]
        omega
    · rw [if_neg hfit] at hc
      rcases List.mem_append.mp hc with h | h
      · by_cases hemp : cur.isEmpty = true
        · rw [if_pos hemp] at h
          exact absurd h (List.not_mem_nil c)
        · rw [if_neg hemp] at h
          rcases List.mem_singleton.mp h with rfl
          exact le_trans (length_trimStr_le cur) hcur
      · exact ih s (fun t ht => hss t (List.mem_cons_of_mem s ht))
          (hss s (List.mem_cons_self s ss)) c h

/-- C6: if every sentence produced by the sentence-boundary split (over
all kept paragraphs) has length at most `maxLen`, then every chunk
returned by `chunkText` has length at most `maxLen` — a chunk can exceed
`maxLen` only when a single sentence does. -/
theorem c6_chunk_length (text : Str) (maxLen : Nat)
    (h : ∀ s ∈ allSentences text, s.length ≤ maxLen) :
    ∀ c ∈ chunkText text maxLen, c.length ≤ maxLen := by
  intro c hc
  rw [chunkText] at hc
  rcases List.mem_flatMap.mp hc with ⟨p, hp, hcp⟩
  rw [processParagraph] at hcp
  by_cases hemp : (trimStr p).isEmpty = true
  · rw [if_pos hemp] at hcp
    exact absurd hcp (List.not_mem_nil c)
  · rw [if_neg hemp] at hcp
    refine packSentences_length_le maxLen (splitSentences (trimStr p)) []
      ?_ (by simp) c hcp
    intro s hs
    exact h s (List.mem_flatMap.mpr ⟨p, hp, hs⟩)

/-- C6 witness: the theorem applied to `"Hi. Bye."` with `maxLen = 300`
(its two sentences have lengths 3 and 4). -/
theorem c6_witness :
    (∀ s ∈ allSentences "Hi. Bye.".data, s.length ≤ 300) ∧
    (∀ c ∈ chunkText "Hi. Bye.".data 300, c.length ≤ 300) :=
  ⟨by decide, c6_chunk_length "Hi. Bye.".data 300 (by decide)⟩

theorem synthLoop_append (infer : Str → Except String (List ℚ × List ℚ))
    (sd : ℚ) (sr : Nat) :
    ∀ (chunks : List Str) (rs : List (List ℚ × List ℚ)) (wavCat : List ℚ)
      (durCat : ℚ),
      chunks.mapM infer = .ok rs → wavCat ≠ [] →
      synthLoop infer sd sr chunks wavCat durCat =
        .ok (wavCat ++ rs.flatMap fun r => silenceSamples sd sr ++ r.1,
             durCat + (rs.map fun r => r.2.headD 0).sum + rs.length * sd) := by
  intro chunks
  induction chunks with
  | nil =>
    intro rs wavCat durCat hm hw
    have hrs : rs = [] := by
      simp only [List.mapM_nil] at hm
      exact (Except.ok.inj hm).symm
    subst hrs
    simp [synthLoop]
  | cons c cs ih =>
    intro rs wavCat durCat hm hw
    rw [List.mapM_cons] at hm
    cases hic : infer c with
    | error e => rw [hic] at hm; exact absurd hm (by simp [Except.bind, Bind.bind])
    | ok r =>
      rw [hic] at hm
      cases hrest : cs.mapM infer with
      | error e =>
        rw [hrest] at hm
        exact absurd hm (by simp [Except.bind, Bind.bind])
      | ok rest =>
        rw [hrest] at hm
        have hrs : rs = r :: rest := by
          simpa [Except.bind, Bind.bind, pure, Except.pure] using hm.symm
        subst hrs
        rw [synthLoop]
        simp only [hic, Except.bind, Bind.bind]
        rw [if_neg (by simpa [List.isEmpty_iff] using hw)]
        have hnew : wavCat ++ silenceSamples sd sr ++ r.1 ≠ [] := by
          intro hcon
          apply hw
          have hlen := congrArg List.length hcon
          simp only [List.length_append, List.length_nil] at hlen
          exact List.length_eq_zero.mp (by omega)
        rw [ih rest (wavCat ++ silenceSamples sd sr ++ r.1)
          (durCat + r.2.headD 0 + sd) hrest hnew]
        congr 1
        simp only [Prod.mk.injEq]
        constructor
        · simp [List.flatMap_cons, List.append_assoc]
        · simp only [List.map_cons, List.sum_cons, List.length_cons]
          push_cast
          ring

/-- C7 (amended): for every multi-chunk synthesis in which every chunk has a
non-empty waveform, the waveform of the first chunk seeds the accumulator,
each subsequent chunk is appended after exactly
`floor(silenceDuration * sampleRate)` zero samples, and the reported
total duration is the sum of per-chunk durations plus `silenceDuration`
once per seam (never after the last chunk).  A chunk with an empty
waveform instead causes the next chunk to re-seed the accumulator,
dropping the duration and seam of that chunk. -/
theorem c7_concatenation (infer : Str → Except String (List ℚ × List ℚ))
    (sd : ℚ) (sr : Nat) (c0 : Str) (cs : List Str)
    (rs : List (List ℚ × List ℚ))
    (hm : (c0 :: cs).mapM infer = .ok rs)
    (hw : ∀ r ∈ rs, r.1 ≠ []) :
    synthLoop infer sd sr (c0 :: cs) [] 0 =
      .ok (specConcat (silenceSamples sd sr) (rs.map Prod.fst),
           (rs.map fun r => r.2.headD 0).sum + (rs.length - 1 : Nat) * sd) := by
  rw [List.mapM_cons] at hm
  cases hic : infer c0 with
  | error e => rw [hic] at hm; exact absurd hm (by simp [Except.bind, Bind.bind])
  | ok r =>
    rw [hic] at hm
    cases hrest : cs.mapM infer with
    | error e =>
      rw [hrest] at hm
      exact absurd hm (by simp [Except.bind, Bind.bind])
    | ok rest =>
      rw [hrest] at hm
      have hrs : rs = r :: rest := by
        simpa [Except.bind, Bind.bind, pure, Except.pure] using hm.symm
      subst hrs
      rw [synthLoop]
      simp only [hic, Except.bind, Bind.bind]
      rw [if_pos (by simp)]
      have hr1 : r.1 ≠ [] := hw r (List.mem_cons_self r rest)
      rw [synthLoop_append infer sd sr cs rest r.1 (r.2.headD 0) hrest hr1]
      congr 1
      simp only [Prod.mk.injEq]
      constructor
      · simp only [List.map_cons, specConcat]
        simp [List.flatMap_map, Function.comp]
      · simp only [List.map_cons, List.sum_cons, List.length_cons]
        push_cast
        ring

/-- C7 counterexample: when the waveform of a chunk is empty (the vocoder is
an opaque backend, so an empty waveform is possible), the next chunk
re-seeds the accumulator and the duration of the empty chunk and the seam
silence are dropped.  With per-chunk durations 1 and 3/2 and
silenceDuration 3/10, the claim predicts total duration
1 + 3/10 + 3/2 = 14/5, but the code reports 3/2. -/
theorem c7_counterexample :
    synthLoop
      (fun c => if c = "a".data then .ok ([], [1]) else .ok ([(1 : ℚ)], [3/2]))
      (3/10) 10 ["a".data, "b".data] [] 0 = .ok ([1], 3/2) ∧
    (3/2 : ℚ) ≠ 1 + 3/10 + 3/2 :=
  ⟨by decide, by decide⟩

/-- Concrete per-chunk inference results used by the C7 witness. -/
def c7Infer : Str → Except String (List ℚ × List ℚ) := fun c =>
  if c = "a".data then .ok ([(2 : ℚ)], [(1 : ℚ)]) else .ok ([(1 : ℚ)], [3/2])

/-- The list of results `c7Infer` yields on the two witness chunks. -/
def c7Results : List (List ℚ × List ℚ) :=
  [([(2 : ℚ)], [(1 : ℚ)]), ([(1 : ℚ)], [3/2])]

/-- C7 witness: the amended theorem applied to two chunks with non-empty
waveforms (durations 1 and 3/2, silenceDuration 3/10, sampleRate 10:
three zero samples are inserted and the reported duration is 14/5). -/
theorem c7_witness :
    (["a".data, "b".data].mapM c7Infer = .ok c7Results) ∧
    (∀ r ∈ c7Results, r.1 ≠ ([] : List ℚ)) ∧
    synthLoop c7Infer (3/10) 10 ["a".data, "b".data] [] 0 =
      .ok (specConcat (silenceSamples (3/10) 10) (c7Results.map Prod.fst),
           (c7Results.map fun r => r.2.headD 0).sum +
             ((c7Results.length - 1 : Nat) : ℚ) * (3/10)) :=
  ⟨by decide, by decide,
    c7_concatenation c7Infer (3/10) 10 "a".data ["b".data] c7Results
      (by decide) (by decide)⟩

/-- The latent produced by `n` denoising steps starting at 0-indexed
`step` (the pure iteration underlying `denoiseSteps`). -/
def iterEst (est : Latent → Nat → Latent) : Nat → Nat → Latent → Latent
  | _, 0, xt => xt
  | step, n + 1, xt => iterEst est (step + 1) n (est xt step)

theorem denoiseSteps_ok (f : Nat → Int → Except String Unit)
    (est : Latent → Nat → Latent) (total : Int)
    (hf : ∀ a b, f a b = Except.ok ()) :
    ∀ (n step : Nat) (xt : Latent),
      denoiseSteps (some f) est total step n xt =
        .ok (iterEst est step n xt,
             (List.range' (step + 1) n).map fun i => (i, total)) := by
  intro n
  induction n with
  | zero => intro step xt; simp [denoiseSteps, iterEst]
  | succ m ih =>
    intro step xt
    rw [denoiseSteps.eq_def]
    simp only [hf, Except.bind, Bind.bind]
    rw [ih (step + 1) (est xt step)]
    rw [List.range'_succ]
    rfl

theorem inferM_trace (nfkd : Str → Str) (indexer : List Int) (cfg : TTSConfig)
    (m : ModelFns) (noise : Nat → Nat → Nat → ℚ) (textList langList : List Str)
    (style : Style) (totalStep : Int) (speed : ℚ)
    (f : Nat → Int → Except String Unit)
    (hf : ∀ a b, f a b = Except.ok ()) (r : InferResult)
    (hr : inferM nfkd indexer cfg m noise textList langList style totalStep
      speed (some f) = .ok r) :
    r.trace = (List.range' 1 totalStep.toNat).map fun i => (i, totalStep) := by
  rw [inferM] at hr
  cases hpc : procCall nfkd indexer textList langList with
  | error e =>
    rw [hpc] at hr
    exact absurd hr (by simp [Except.bind, Bind.bind])
  | ok pr =>
    rw [hpc] at hr
    simp only [Except.bind, Bind.bind] at hr
    rw [denoiseSteps_ok f _ totalStep hf totalStep.toNat 0 _] at hr
    have h2 := Except.ok.inj hr
    rw [← h2]

theorem inferM_callback_error (nfkd : Str → Str) (indexer : List Int)
    (cfg : TTSConfig) (m : ModelFns) (noise : Nat → Nat → Nat → ℚ)
    (textList langList : List Str) (style : Style) (totalStep : Int)
    (speed : ℚ) (f : Nat → Int → Except String Unit) (e : String)
    (pr : List (List Int) × List (List (List ℚ)))
    (hpc : procCall nfkd indexer textList langList = .ok pr)
    (hpos : 0 < totalStep.toNat) (hf : f 1 totalStep = .error e) :
    inferM nfkd indexer cfg m noise textList langList style totalStep speed
      (some f) = .error e := by
  rw [inferM, hpc]
  simp only [Except.bind, Bind.bind]
  obtain ⟨k, hk⟩ : ∃ k, totalStep.toNat = k + 1 :=
    ⟨totalStep.toNat - 1, by omega⟩
  rw [hk, denoiseSteps.eq_def]
  simp [hf, Except.bind, Bind.bind]

/-- C2 (amended): when a progress callback is supplied, it is invoked
with `(s+1, totalStep)` before the computation of each denoising step (the
instrumented invocation trace of a successful run is exactly
`[(1, T), ..., (T, T)]` in order); but an exception thrown by the
callback is not caught: it propagates and aborts the synthesis of the
chunk with that error instead of letting the pipeline complete. -/
theorem c2_progress_callback :
    (∀ (nfkd : Str → Str) (indexer : List Int) (cfg : TTSConfig)
      (m : ModelFns) (noise : Nat → Nat → Nat → ℚ)
      (textList langList : List Str) (style : Style) (totalStep : Int)
      (speed : ℚ) (f : Nat → Int → Except String Unit) (r : InferResult),
      (∀ a b, f a b = Except.ok ()) →
      inferM nfkd indexer cfg m noise textList langList style totalStep
        speed (some f) = .ok r →
      r.trace = (List.range' 1 totalStep.toNat).map fun i => (i, totalStep)) ∧
    (∀ (nfkd : Str → Str) (indexer : List Int) (cfg : TTSConfig)
      (m : ModelFns) (noise : Nat → Nat → Nat → ℚ)
      (textList langList : List Str) (style : Style) (totalStep : Int)
      (speed : ℚ) (f : Nat → Int → Except String Unit) (e : String)
      (pr : List (List Int) × List (List (List ℚ))),
      procCall nfkd indexer textList langList = .ok pr →
      0 < totalStep.toNat → f 1 totalStep = .error e →
      inferM nfkd indexer cfg m noise textList langList style totalStep
        speed (some f) = .error e) :=
  ⟨fun nfkd indexer cfg m noise tl ll style ts speed f r hf hr =>
      inferM_trace nfkd indexer cfg m noise tl ll style ts speed f hf r hr,
    fun nfkd indexer cfg m noise tl ll style ts speed f e pr hpc hpos hf =>
      inferM_callback_error nfkd indexer cfg m noise tl ll style ts speed
        f e pr hpc hpos hf⟩

/-- Concrete model backends used by the C2 and C10 witnesses: a duration
predictor returning 1 second, trivial encoder and estimator, a vocoder
returning a single sample. -/
def tinyModels : ModelFns :=
  ⟨fun _ _ _ => [1], fun _ _ _ => [], fun _ _ _ _ _ _ _ => [0], fun _ => [5]⟩

/-- Concrete minimal configuration used by the C2 and C10 witnesses. -/
def tinyCfg : TTSConfig := ⟨1, 1, 1, 1⟩

/-- Concrete single-batch style used by the C2 and C10 witnesses. -/
def tinyStyle : Style := ⟨⟨[1], []⟩, ⟨[1], []⟩⟩

/-- A progress callback that always succeeds. -/
def okCb : Nat → Int → Except String Unit := fun _ _ => .ok ()

/-- A progress callback that always throws. -/
def boomCb : Nat → Int → Except String Unit := fun _ _ => .error "boom"

/-- C2 counterexample: with a callback that throws, the synthesis of a
chunk does not complete with a waveform; the exception of the callback
propagates and `_infer` aborts with it. -/
theorem c2_counterexample :
    inferM nfkdId [] tinyCfg tinyModels (fun _ _ _ => 0) ["Hi".data]
      ["en".data] tinyStyle 1 1 (some boomCb) = .error "boom" ∧
    ∀ (r : InferResult),
      inferM nfkdId [] tinyCfg tinyModels (fun _ _ _ => 0) ["Hi".data]
        ["en".data] tinyStyle 1 1 (some boomCb) ≠ .ok r := by
  refine ⟨by decide, fun r hr => ?_⟩
  rw [show inferM nfkdId [] tinyCfg tinyModels (fun _ _ _ => 0) ["Hi".data]
      ["en".data] tinyStyle 1 1 (some boomCb) = .error "boom" from by decide]
    at hr
  exact Except.noConfusion hr

/-- C2 witness: both halves of the amended theorem at concrete inputs —
a two-step run with a succeeding callback is invoked with `(1,2),(2,2)`
in order, and a run whose callback throws aborts with that error. -/
theorem c2_witness :
    ((∀ a b, okCb a b = Except.ok ()) ∧
      inferM nfkdId [] tinyCfg tinyModels (fun _ _ _ => 0) ["Hi".data]
        ["en".data] tinyStyle 2 1 (some okCb) =
        .ok ⟨[5], [1], [(1, 2), (2, 2)]⟩ ∧
      (⟨[5], [1], [(1, 2), (2, 2)]⟩ : InferResult).trace =
        (List.range' 1 (Int.toNat 2)).map fun i => (i, (2 : Int))) ∧
    (procCall nfkdId [] ["Hi".data] ["en".data] =
        .ok ([List.replicate 12 (-1 : Int)], [[List.replicate 12 (1 : ℚ)]]) ∧
      0 < (1 : Int).toNat ∧ boomCb 1 1 = .error "boom" ∧
      inferM nfkdId [] tinyCfg tinyModels (fun _ _ _ => 0) ["Hi".data]
        ["en".data] tinyStyle 1 1 (some boomCb) = .error "boom") :=
  ⟨⟨fun a b => rfl, by decide,
      c2_progress_callback.1 nfkdId [] tinyCfg tinyModels (fun _ _ _ => 0)
        ["Hi".data] ["en".data] tinyStyle 2 1 okCb
        ⟨[5], [1], [(1, 2), (2, 2)]⟩ (fun a b => rfl) (by decide)⟩,
    ⟨by decide, by decide, rfl,
      c2_progress_callback.2 nfkdId [] tinyCfg tinyModels (fun _ _ _ => 0)
        ["Hi".data] ["en".data] tinyStyle 1 1 boomCb "boom"
        ([List.replicate 12 (-1 : Int)], [[List.replicate 12 (1 : ℚ)]])
        (by decide) (by decide) rfl⟩⟩

theorem inferM_zero_steps (nfkd : Str → Str) (indexer : List Int)
    (cfg : TTSConfig) (m : ModelFns) (noise : Nat → Nat → Nat → ℚ)
    (textList langList : List Str) (style : Style) (totalStep : Int)
    (speed : ℚ) (cb : Option (Nat → Int → Except String Unit))
    (pr : List (List Int) × List (List (List ℚ)))
    (hpc : procCall nfkd indexer textList langList = .ok pr)
    (hts : totalStep ≤ 0) :
    inferM nfkd indexer cfg m noise textList langList style totalStep speed
      cb =
      .ok ⟨m.vocoderRun (sampleNoisyLatent noise
            ((m.dpRun pr.1 style.dp pr.2).map fun d => d / speed)
            cfg.sample_rate cfg.base_chunk_size cfg.chunk_compress_factor
            cfg.latent_dim).xt,
          (m.dpRun pr.1 style.dp pr.2).map fun d => d / speed, []⟩ := by
  rw [inferM, hpc]
  have h0 : totalStep.toNat = 0 := by omega
  rw [h0]
  simp [denoiseSteps, Except.bind, Bind.bind]

theorem synthLoop_ok (infer : Str → Except String (List ℚ × List ℚ))
    (sd : ℚ) (sr : Nat) (hok : ∀ c, ∃ r, infer c = .ok r) :
    ∀ (chunks : List Str) (wavCat : List ℚ) (durCat : ℚ),
      ∃ out, synthLoop infer sd sr chunks wavCat durCat = .ok out := by
  intro chunks
  induction chunks with
  | nil => intro wavCat durCat; exact ⟨(wavCat, durCat), rfl⟩
  | cons c cs ih =>
    intro wavCat durCat
    rcases hok c with ⟨r, hr⟩
    rw [synthLoop]
    simp only [hr, Except.bind, Bind.bind]
    by_cases hw : wavCat.isEmpty = true
    · rw [if_pos hw]; exact ih _ _
    · rw [if_neg hw]; exact ih _ _

theorem preprocessText_ok (nfkd : Str → Str) (text lang : Str)
    (hlang : isValidLang lang = true) :
    preprocessText nfkd text lang =
      .ok (openTag lang ++ cleanupText nfkd text ++ closeTag lang) := by
  rw [preprocessText, if_pos hlang]

theorem procCall_single_ok (nfkd : Str → Str) (indexer : List Int)
    (text lang : Str) (hlang : isValidLang lang = true) :
    ∃ pr, procCall nfkd indexer [text] [lang] = .ok pr := by
  rw [procCall, mapProcess]
  simp only [List.getD_cons_zero, preprocessText_ok nfkd text lang hlang,
    mapProcess, Except.bind, Bind.bind]
  exact ⟨_, rfl⟩

theorem inferM_ok_zero (nfkd : Str → Str) (indexer : List Int)
    (cfg : TTSConfig) (m : ModelFns) (noise : Nat → Nat → Nat → ℚ)
    (text lang : Str) (style : Style) (totalStep : Int) (speed : ℚ)
    (cb : Option (Nat → Int → Except String Unit))
    (hlang : isValidLang lang = true) (hts : totalStep ≤ 0) :
    ∃ r, inferM nfkd indexer cfg m noise [text] [lang] style totalStep speed
      cb = .ok r := by
  rcases procCall_single_ok nfkd indexer text lang hlang with ⟨pr, hpc⟩
  exact ⟨_, inferM_zero_steps nfkd indexer cfg m noise [text] [lang] style
    totalStep speed cb pr hpc hts⟩

/-- C10: `totalStep` is never validated.  With `totalStep ≤ 0` and a
style whose `ttl` batch dimension is 1, the denoising loop executes zero
iterations (the callback trace is empty), the vocoder is applied directly
to the initial masked Gaussian latent, and the top-level call returns a
waveform without raising any error. -/
theorem c10_nonpositive_total_step :
    (∀ (nfkd : Str → Str) (indexer : List Int) (cfg : TTSConfig)
      (m : ModelFns) (noise : Nat → Nat → Nat → ℚ)
      (textList langList : List Str) (style : Style) (totalStep : Int)
      (speed : ℚ) (cb : Option (Nat → Int → Except String Unit))
      (pr : List (List Int) × List (List (List ℚ))),
      procCall nfkd indexer textList langList = .ok pr → totalStep ≤ 0 →
      inferM nfkd indexer cfg m noise textList langList style totalStep
        speed cb =
        .ok ⟨m.vocoderRun (sampleNoisyLatent noise
              ((m.dpRun pr.1 style.dp pr.2).map fun d => d / speed)
              cfg.sample_rate cfg.base_chunk_size cfg.chunk_compress_factor
              cfg.latent_dim).xt,
            (m.dpRun pr.1 style.dp pr.2).map fun d => d / speed, []⟩) ∧
    (∀ (nfkd : Str → Str) (indexer : List Int) (cfg : TTSConfig)
      (m : ModelFns) (noise : Nat → Nat → Nat → ℚ) (text lang : Str)
      (style : Style) (totalStep : Int) (speed silenceDuration : ℚ)
      (cb : Option (Nat → Int → Except String Unit)),
      totalStep ≤ 0 → style.ttl.dims.headD 0 = 1 → isValidLang lang = true →
      ∃ out, callTTS nfkd indexer cfg m noise text lang style totalStep
        speed silenceDuration cb = .ok out) := by
  constructor
  · intro nfkd indexer cfg m noise tl ll style ts speed cb pr hpc hts
    exact inferM_zero_steps nfkd indexer cfg m noise tl ll style ts speed
      cb pr hpc hts
  · intro nfkd indexer cfg m noise text lang style ts speed sd cb hts hdim
      hlang
    rw [callTTS]
    rw [if_neg (show ¬(style.ttl.dims.headD 0 ≠ 1) from by rw [hdim]; simp)]
    have hok : ∀ c, ∃ r,
        (inferM nfkd indexer cfg m noise [c] [lang] style ts speed cb).map
          (fun ir => (ir.wav, ir.duration)) = .ok r := by
      intro c
      rcases inferM_ok_zero nfkd indexer cfg m noise c lang style ts speed
        cb hlang hts with ⟨r, hr⟩
      exact ⟨(r.wav, r.duration), by rw [hr]; rfl⟩
    rcases synthLoop_ok _ sd cfg.sample_rate hok
      (chunkText text (if lang = "ko".data then 120 else 300)) [] 0 with
      ⟨out, hout⟩
    exact ⟨(out.1, [out.2]), by simp only [hout, Except.bind, Bind.bind]⟩

/-- C10 witness: the theorem applied with `totalStep = 0` at concrete
inputs (the denoising trace is empty, the vocoder output is returned,
and the top-level call succeeds). -/
theorem c10_witness :
    (procCall nfkdId [] ["Hi".data] ["en".data] =
        .ok ([List.replicate 12 (-1 : Int)], [[List.replicate 12 (1 : ℚ)]]) ∧
      (0 : Int) ≤ 0 ∧
      inferM nfkdId [] tinyCfg tinyModels (fun _ _ _ => 0) ["Hi".data]
        ["en".data] tinyStyle 0 1 (some boomCb) =
        .ok ⟨tinyModels.vocoderRun (sampleNoisyLatent (fun _ _ _ => 0)
              ((tinyModels.dpRun [List.replicate 12 (-1 : Int)] tinyStyle.dp
                  [[List.replicate 12 (1 : ℚ)]]).map fun d => d / 1)
              tinyCfg.sample_rate tinyCfg.base_chunk_size
              tinyCfg.chunk_compress_factor tinyCfg.latent_dim).xt,
            (tinyModels.dpRun [List.replicate 12 (-1 : Int)] tinyStyle.dp
              [[List.replicate 12 (1 : ℚ)]]).map fun d => d / 1, []⟩) ∧
    (tinyStyle.ttl.dims.headD 0 = 1 ∧ isValidLang "en".data = true ∧
      ∃ out, callTTS nfkdId [] tinyCfg tinyModels (fun _ _ _ => 0)
        "Hi".data "en".data tinyStyle 0 1 (3/10) (some boomCb) = .ok out) :=
  ⟨⟨by decide, le_refl 0,
      c10_nonpositive_total_step.1 nfkdId [] tinyCfg tinyModels
        (fun _ _ _ => 0) ["Hi".data] ["en".data] tinyStyle 0 1 (some boomCb)
        ([List.replicate 12 (-1 : Int)], [[List.replicate 12 (1 : ℚ)]])
        (by decide) (le_refl 0)⟩,
    ⟨by decide, by decide,
      c10_nonpositive_total_step.2 nfkdId [] tinyCfg tinyModels
        (fun _ _ _ => 0) "Hi".data "en".data tinyStyle 0 1 (3/10)
        (some boomCb) (le_refl 0) (by decide) (by decide)⟩⟩

theorem getD_range_map {α : Type} (f : Nat → α) (n i : Nat) (d : α)
    (h : i < n) : ((List.range n).map f).getD i d = f i := by
  rw [List.getD_eq_getElem?_getD, List.getElem?_map, List.getElem?_range h]
  rfl

theorem le_foldr_max (l : List Nat) : ∀ x ∈ l, x ≤ l.foldr max 0 := by
  induction l with
  | nil => simp
  | cons a as ih =>
    intro x hx
    rcases List.mem_cons.mp hx with rfl | hx
    · exact le_max_left _ _
    · exact le_trans (ih x hx) (le_max_right _ _)

theorem sum_range_indicator (k : Nat) :
    ∀ (n : Nat),
      ((List.range n).map fun j => if j < k then (1 : ℚ) else 0).sum =
        ((min n k : Nat) : ℚ) := by
  intro n
  induction n with
  | zero => simp
  | succ m ih =>
    rw [List.range_succ, List.map_append, List.sum_append]
    simp only [List.map_cons, List.map_nil, List.sum_cons, List.sum_nil]
    rw [ih]
    by_cases h : m < k
    · rw [if_pos h]
      have hm : min (m + 1) k = min m k + 1 := by omega
      rw [hm]
      push_cast
      ring
    · rw [if_neg h]
      have hm : min (m + 1) k = min m k := by omega
      rw [hm]
      ring

/-- C8: for every non-empty batch whose preprocessing succeeds with
processed texts `ps`, tokenization maps each code point of each processed
text through the lookup table (points beyond the table range map to -1),
right-pads each id row with 0 to the batch-wide maximum length, and
builds a `(batch, 1, maxLen)` mask whose row `i` has `1.0` at column `j`
exactly when `j < length(i)` and `0.0` otherwise, so each mask row sums
to the true length of that text. -/
theorem c8_tokenization (nfkd : Str → Str) (indexer : List Int)
    (textList langList : List Str) (ps : List Str)
    (hne : textList ≠ [])
    (hproc : mapProcess nfkd langList 0 textList = .ok ps) :
    ∃ ids mask, procCall nfkd indexer textList langList = .ok (ids, mask) ∧
      (∀ c : Char, indexer.length ≤ c.toNat → lookupIndexer indexer c = -1) ∧
      ids.length = ps.length ∧ mask.length = ps.length ∧
      (∀ i, i < ps.length →
        (ids.getD i []).length = (ps.map List.length).foldr max 0 ∧
        (∀ j, j < (ps.getD i []).length →
          (ids.getD i []).getD j 0 =
            lookupIndexer indexer ((ps.getD i []).getD j ' ')) ∧
        (∀ j, (ps.getD i []).length ≤ j →
          j < (ps.map List.length).foldr max 0 →
          (ids.getD i []).getD j 0 = 0) ∧
        (mask.getD i []).length = 1 ∧
        (∀ j, j < (ps.map List.length).foldr max 0 →
          ((mask.getD i []).getD 0 []).getD j 0 =
            if j < (ps.getD i []).length then (1 : ℚ) else 0) ∧
        ((mask.getD i []).getD 0 []).sum = ((ps.getD i []).length : ℚ)) := by
  rw [procCall, hproc]
  simp only [Except.bind, Bind.bind]
  refine ⟨_, _, rfl, ?_, by rw [List.length_map],
    by rw [getTextMask, uLengthToMask]; simp, ?_⟩
  · intro c hc
    rw [lookupIndexer, if_neg (by omega)]
  · intro i hi
    set maxLen := (ps.map List.length).foldr max 0 with hmaxLen
    have hpsD : ps.getD i [] = ps[i] := by
      rw [List.getD_eq_getElem?_getD, List.getElem?_eq_getElem hi]
      rfl
    have hlenle : ps[i].length ≤ maxLen := by
      apply le_foldr_max
      exact List.mem_map.mpr ⟨ps[i], List.getElem_mem hi, rfl⟩
    have hids : (ps.map fun t => (List.range maxLen).map fun j =>
        if j < t.length then lookupIndexer indexer (t.getD j ' ') else 0).getD
          i [] =
        (List.range maxLen).map fun j =>
          if j < ps[i].length then lookupIndexer indexer (ps[i].getD j ' ')
          else 0 := by
      rw [List.getD_eq_getElem?_getD, List.getElem?_map,
        List.getElem?_eq_getElem hi]
      rfl
    have hactual : actualMax (ps.map List.length) (some maxLen) = maxLen := by
      rw [actualMax]
      by_cases h : maxLen = 0
      · rw [if_pos h, ← hmaxLen]
      · rw [if_neg h]
    have hmask : (getTextMask (ps.map List.length)).getD i [] =
        [(List.range maxLen).map fun j =>
          if j < min ps[i].length maxLen then (1 : ℚ) else 0] := by
      rw [getTextMask, uLengthToMask, ← hmaxLen]
      rw [hactual]
      rw [List.getD_eq_getElem?_getD, List.getElem?_map,
        List.getElem?_eq_getElem (by simpa using hi)]
      simp only [Option.map_some', Option.getD_some]
      congr 2
      all_goals rw [List.getElem_map]
    refine ⟨?_, ?_, ?_, ?_, ?_, ?_⟩
    · rw [hids]; simp
    · intro j hj
      rw [hpsD] at hj ⊢
      rw [hids, getD_range_map _ _ _ _ (lt_of_lt_of_le hj hlenle),
        if_pos hj]
    · intro j hj1 hj2
      rw [hpsD] at hj1
      rw [hids, getD_range_map _ _ _ _ hj2, if_neg (by omega)]
    · rw [hmask]; rfl
    · intro j hj
      rw [hpsD]
      rw [hmask]
      simp only [List.getD_cons_zero]
      rw [getD_range_map _ _ _ _ hj]
      rw [min_eq_left hlenle]
    · rw [hpsD, hmask]
      simp only [List.getD_cons_zero]
      rw [min_eq_left hlenle, sum_range_indicator]
      have hmm : min maxLen ps[i].length = ps[i].length := by omega
      rw [hmm]

/-- Concrete batch used by the C8 witness. -/
def c8Texts : List Str := ["Hi".data, "Bye Bye".data]

/-- Concrete language list used by the C8 witness. -/
def c8Langs : List Str := ["en".data, "en".data]

/-- The processed texts of the C8 witness batch. -/
def c8Ps : List Str := ["<en>Hi.</en>".data, "<en>Bye Bye.</en>".data]

/-- C8 witness: the theorem applied to a concrete mixed-length batch
(processed lengths 12 and 17, padded to 17). -/
theorem c8_witness :
    c8Texts ≠ [] ∧
    mapProcess nfkdId c8Langs 0 c8Texts = .ok c8Ps ∧
    (∃ ids mask, procCall nfkdId [5, 6, 7] c8Texts c8Langs = .ok (ids, mask) ∧
      (∀ c : Char, ([5, 6, 7] : List Int).length ≤ c.toNat →
        lookupIndexer [5, 6, 7] c = -1) ∧
      ids.length = c8Ps.length ∧ mask.length = c8Ps.length ∧
      (∀ i, i < c8Ps.length →
        (ids.getD i []).length = (c8Ps.map List.length).foldr max 0 ∧
        (∀ j, j < (c8Ps.getD i []).length →
          (ids.getD i []).getD j 0 =
            lookupIndexer [5, 6, 7] ((c8Ps.getD i []).getD j ' ')) ∧
        (∀ j, (c8Ps.getD i []).length ≤ j →
          j < (c8Ps.map List.length).foldr max 0 →
          (ids.getD i []).getD j 0 = 0) ∧
        (mask.getD i []).length = 1 ∧
        (∀ j, j < (c8Ps.map List.length).foldr max 0 →
          ((mask.getD i []).getD 0 []).getD j 0 =
            if j < (c8Ps.getD i []).length then (1 : ℚ) else 0) ∧
        ((mask.getD i []).getD 0 []).sum = ((c8Ps.getD i []).length : ℚ))) :=
  ⟨by decide, by decide,
    c8_tokenization nfkdId [5, 6, 7] c8Texts c8Langs c8Ps (by decide)
      (by decide)⟩

theorem latentLenOf_eq_ceil (w : Int) (c : Nat) (hc : 0 < c) :
    latentLenOf w c = Int.ceil ((w : ℚ) / (c : ℚ)) := by
  have hc0 : (0 : ℚ) < (c : ℚ) := by exact_mod_cast hc
  rw [latentLenOf]
  set m := Int.ceil ((w : ℚ) / (c : ℚ)) with hm
  have h1 : (w : ℚ) / c ≤ (m : ℚ) := Int.le_ceil _
  have h2 : (m : ℚ) - 1 < (w : ℚ) / c := by
    have h3 := Int.ceil_lt_add_one ((w : ℚ) / c)
    rw [← hm] at h3
    have h4 : ((m : ℚ)) < (w : ℚ) / c + 1 := by exact_mod_cast h3
    linarith
  have h1q : (w : ℚ) ≤ (m : ℚ) * c := (div_le_iff hc0).mp h1
  have h2q : ((m : ℚ) - 1) * c < (w : ℚ) := (lt_div_iff hc0).mp h2
  have h1z : w ≤ m * c := by exact_mod_cast h1q
  have h2z : (m - 1) * c < w := by exact_mod_cast h2q
  rw [Int.floor_eq_iff]
  constructor
  · rw [le_div_iff hc0]
    have hgoal : m * c ≤ w + c - 1 := by
      have hexp : (m - 1) * (c : Int) = m * c - c := by ring
      rw [hexp] at h2z
      omega
    calc (m : ℚ) * c ≤ ((w + (c : Int) - 1 : Int) : ℚ) := by exact_mod_cast hgoal
      _ = _ := by push_cast; ring
  · rw [div_lt_iff hc0]
    have hgoal : w + (c : Int) - 1 < (m + 1) * c := by
      have hexp : (m + 1) * (c : Int) = m * c + c := by ring
      omega
    calc ((w + (c : Int) - 1 : Int) : ℚ) < (((m + 1) * c : Int) : ℚ) := by
          exact_mod_cast hgoal
      _ = ((m : ℚ) + 1) * c := by push_cast; ring

theorem le_foldr_maxQ (l : List ℚ) (init : ℚ) :
    ∀ x ∈ l, x ≤ l.foldr max init := by
  induction l with
  | nil => simp
  | cons a as ih =>
    intro x hx
    rcases List.mem_cons.mp hx with rfl | hx
    · exact le_max_left _ _
    · exact le_trans (ih x hx) (le_max_right _ _)

theorem foldr_max_mem_or (l : List ℚ) (init : ℚ) :
    l.foldr max init = init ∨ l.foldr max init ∈ l := by
  induction l with
  | nil => exact Or.inl rfl
  | cons a as ih =>
    rw [List.foldr_cons]
    rcases le_total a (as.foldr max init) with h | h
    · rw [max_eq_right h]
      rcases ih with h2 | h2
      · exact Or.inl h2
      · exact Or.inr (List.mem_cons_of_mem a h2)
    · rw [max_eq_left h]
      exact Or.inr (List.mem_cons_self a as)

theorem listMaxQ_mem (l : List ℚ) (h : l ≠ []) : listMaxQ l ∈ l := by
  cases l with
  | nil => exact absurd rfl h
  | cons a as =>
    rw [listMaxQ]
    rcases foldr_max_mem_or (a :: as) ((a :: as).headD 0) with h2 | h2
    · rw [h2]
      simp
    · exact h2

theorem listMaxQ_ge (l : List ℚ) : ∀ x ∈ l, x ≤ listMaxQ l := by
  intro x hx
  exact le_foldr_maxQ l (l.headD 0) x hx


theorem sampleNoisyLatent_xt (noise : Nat → Nat → Nat → ℚ)
    (duration : List ℚ) (sampleRate baseChunkSize chunkCompress latentDim : Nat) :
    (sampleNoisyLatent noise duration sampleRate baseChunkSize chunkCompress
      latentDim).xt =
      (List.range duration.length).map fun b =>
        (List.range (latentDim * chunkCompress)).map fun d =>
          (List.range (latentLenOf
              (Int.floor (listMaxQ duration * (sampleRate : ℚ)))
              (baseChunkSize * chunkCompress)).toNat).map fun t =>
            ((((List.range duration.length).map fun b2 =>
                (List.range (latentDim * chunkCompress)).map fun d2 =>
                  (List.range (latentLenOf
                      (Int.floor (listMaxQ duration * (sampleRate : ℚ)))
                      (baseChunkSize * chunkCompress)).toNat).map fun t2 =>
                    noise b2 d2 t2).getD b []).getD d []).getD t 0 *
            ((((ttsLengthToMask
                ((duration.map fun du =>
                    Int.floor (du * (sampleRate : ℚ))).map fun len =>
                  latentLenOf len (baseChunkSize * chunkCompress))
                (some (latentLenOf
                  (Int.floor (listMaxQ duration * (sampleRate : ℚ)))
                  (baseChunkSize * chunkCompress)))).getD b []).getD
              0 []).getD t 0) := rfl

/-- C9: for every non-empty duration list with a positive chunk size,
latent sampling derives `wavLenMax = floor(max(durations) * sampleRate)`
(the fold used for the maximum is indeed the maximum), per-item
`wavLen_i = floor(durations_i * sampleRate)`,
`chunkSize = baseChunkSize * chunkCompressFactor`, and every latent
length as `ceil(wavLen / chunkSize)`; the latent grid has `batch` rows of
`latentDim * chunkCompressFactor` dims and `latentLen` time positions,
and after masking every entry of item `b` at a time index at or beyond
the latent length of that item is exactly `0`. -/
theorem c9_latent_sampling (noise : Nat → Nat → Nat → ℚ) (duration : List ℚ)
    (sampleRate baseChunkSize chunkCompress latentDim : Nat)
    (hne : duration ≠ [])
    (hpos : 0 < baseChunkSize * chunkCompress) :
    (listMaxQ duration ∈ duration ∧
      ∀ d ∈ duration, d ≤ listMaxQ duration) ∧
    (∀ w : Int, latentLenOf w (baseChunkSize * chunkCompress) =
      Int.ceil ((w : ℚ) / ((baseChunkSize * chunkCompress : Nat) : ℚ))) ∧
    (sampleNoisyLatent noise duration sampleRate baseChunkSize chunkCompress
      latentDim).xt.length = duration.length ∧
    (∀ b, b < duration.length →
      ((sampleNoisyLatent noise duration sampleRate baseChunkSize
          chunkCompress latentDim).xt.getD b []).length =
        latentDim * chunkCompress ∧
      ∀ dd, dd < latentDim * chunkCompress →
        (((sampleNoisyLatent noise duration sampleRate baseChunkSize
            chunkCompress latentDim).xt.getD b []).getD dd []).length =
          (latentLenOf (Int.floor (listMaxQ duration * (sampleRate : ℚ)))
            (baseChunkSize * chunkCompress)).toNat ∧
        ∀ t, t < (latentLenOf
            (Int.floor (listMaxQ duration * (sampleRate : ℚ)))
            (baseChunkSize * chunkCompress)).toNat →
          latentLenOf (Int.floor ((duration.getD b 0) * (sampleRate : ℚ)))
            (baseChunkSize * chunkCompress) ≤ (t : Int) →
          ((((sampleNoisyLatent noise duration sampleRate baseChunkSize
              chunkCompress latentDim).xt.getD b []).getD dd []).getD t 0)
            = 0) := by
  set cs := baseChunkSize * chunkCompress with hcs
  set latLen := latentLenOf
    (Int.floor (listMaxQ duration * (sampleRate : ℚ))) cs with hlatLen
  refine ⟨⟨listMaxQ_mem duration hne, listMaxQ_ge duration⟩,
    fun w => latentLenOf_eq_ceil w cs hpos, ?_, ?_⟩
  · rw [sampleNoisyLatent_xt]
    simp
  · intro b hb
    rw [sampleNoisyLatent_xt]
    rw [getD_range_map _ duration.length b [] hb]
    refine ⟨by simp, ?_⟩
    intro dd hdd
    rw [getD_range_map _ _ dd [] hdd]
    refine ⟨by simp, ?_⟩
    intro t ht hlatb
    rw [getD_range_map _ _ t 0 ht]
    have hlat0 : latLen ≠ 0 := by
      intro h0
      rw [h0] at ht
      simp at ht
    set lens := (duration.map fun du =>
      Int.floor (du * (sampleRate : ℚ))).map fun len => latentLenOf len cs
      with hlens
    have hblens : b < lens.length := by
      rw [hlens]
      simpa using hb
    have hlensb : lens[b] = lens.getD b 0 := by
      rw [List.getD_eq_getElem?_getD, List.getElem?_eq_getElem hblens]
      rfl
    have hlenb : lens.getD b 0 =
        latentLenOf (Int.floor ((duration.getD b 0) * (sampleRate : ℚ)))
          cs := by
      rw [hlens]
      rw [List.getD_eq_getElem?_getD, List.getElem?_map, List.getElem?_map,
        List.getElem?_eq_getElem hb]
      simp only [Option.map_some', Option.getD_some]
      rw [List.getD_eq_getElem?_getD, List.getElem?_eq_getElem hb]
      rfl
    have hact : actualMaxI lens (some latLen) = latLen := by
      rw [actualMaxI, if_neg hlat0]
    have houter : (ttsLengthToMask lens (some latLen)).getD b [] =
        [(List.range latLen.toNat).map fun (j : Nat) =>
          if (j : Int) < min lens[b] latLen then (1 : ℚ) else 0] := by
      rw [ttsLengthToMask]
      simp only [hact]
      rw [List.getD_eq_getElem?_getD, List.getElem?_map,
        List.getElem?_eq_getElem hblens]
      simp only [Option.map_some', Option.getD_some]
    have hmaskval : (((ttsLengthToMask lens (some latLen)).getD b []).getD
        0 []).getD t 0 = 0 := by
      rw [houter]
      simp only [List.getD_cons_zero]
      rw [getD_range_map _ _ t 0 ht]
      rw [if_neg]
      refine not_lt.mpr (le_trans (min_le_left _ _) ?_)
      rw [hlensb, hlenb]
      exact hlatb
    rw [hmaskval, mul_zero]

/-- Concrete noise source used by the C9 witness. -/
def c9Noise : Nat → Nat → Nat → ℚ := fun _ _ _ => 5

/-- Concrete duration list used by the C9 witness. -/
def c9Dur : List ℚ := [1, 3/2]

/-- C9 witness: the theorem applied at durations `[1, 3/2]`, sample rate
10, base chunk size 2, compression 2, latent dim 3 (so `wavLenMax = 15`,
`chunkSize = 4`, `latentLen = 4`, per-item latent lengths 3 and 4). -/
theorem c9_witness :
    c9Dur ≠ [] ∧ 0 < 2 * 2 ∧
    ((listMaxQ c9Dur ∈ c9Dur ∧ ∀ d ∈ c9Dur, d ≤ listMaxQ c9Dur) ∧
    (∀ w : Int, latentLenOf w (2 * 2) =
      Int.ceil ((w : ℚ) / ((2 * 2 : Nat) : ℚ))) ∧
    (sampleNoisyLatent c9Noise c9Dur 10 2 2 3).xt.length = c9Dur.length ∧
    (∀ b, b < c9Dur.length →
      ((sampleNoisyLatent c9Noise c9Dur 10 2 2 3).xt.getD b []).length =
        3 * 2 ∧
      ∀ dd, dd < 3 * 2 →
        (((sampleNoisyLatent c9Noise c9Dur 10 2 2 3).xt.getD b []).getD
          dd []).length =
          (latentLenOf (Int.floor (listMaxQ c9Dur * (10 : ℚ))) (2 * 2)).toNat ∧
        ∀ t, t < (latentLenOf (Int.floor (listMaxQ c9Dur * (10 : ℚ)))
            (2 * 2)).toNat →
          latentLenOf (Int.floor ((c9Dur.getD b 0) * (10 : ℚ))) (2 * 2) ≤
            (t : Int) →
          ((((sampleNoisyLatent c9Noise c9Dur 10 2 2 3).xt.getD b []).getD
            dd []).getD t 0) = 0)) :=
  ⟨by decide, by decide,
    c9_latent_sampling c9Noise c9Dur 10 2 2 3 (by decide) (by decide)⟩

theorem cleanupText_eq (nfkd : Str → Str) (t : Str) :
    cleanupText nfkd t =
      (if (trimStr (collapseWS (collapsePair (Char.ofNat 96)
          (collapsePair (Char.ofNat 39) (collapsePair (Char.ofNat 34)
            (applySpacingFixes (applyExprReplacements (removeSpecialSymbols
              (applyCharReplacements
                ((nfkd t).filter fun c =>
                  !(isEmoji c))))))))))).getLast?.elim false
          (fun c => terminalChars.contains c) then
        trimStr (collapseWS (collapsePair (Char.ofNat 96)
          (collapsePair (Char.ofNat 39) (collapsePair (Char.ofNat 34)
            (applySpacingFixes (applyExprReplacements (removeSpecialSymbols
              (applyCharReplacements
                ((nfkd t).filter fun c => !(isEmoji c))))))))))
      else
        trimStr (collapseWS (collapsePair (Char.ofNat 96)
          (collapsePair (Char.ofNat 39) (collapsePair (Char.ofNat 34)
            (applySpacingFixes (applyExprReplacements (removeSpecialSymbols
              (applyCharReplacements
                ((nfkd t).filter fun c => !(isEmoji c)))))))))) ++ ['.']) :=
  rfl

theorem ends_terminal_aux (T : Str) :
    (if T.getLast?.elim false (fun c => terminalChars.contains c) then T
      else T ++ ['.']) ≠ [] ∧
    ∃ c, (if T.getLast?.elim false (fun c => terminalChars.contains c) then T
      else T ++ ['.']).getLast? = some c ∧ terminalChars.contains c = true := by
  by_cases h : (T.getLast?.elim false fun c => terminalChars.contains c) = true
  · rw [if_pos h]
    cases hl : T.getLast? with
    | none => rw [hl] at h; simp at h
    | some c =>
      rw [hl] at h
      simp only [Option.elim] at h
      refine ⟨?_, c, rfl, h⟩
      intro he
      rw [he] at hl
      simp at hl
  · rw [if_neg h]
    refine ⟨by simp, '.', List.getLast?_concat T, by decide⟩

theorem cleanupText_ne_nil (nfkd : Str → Str) (t : Str) :
    cleanupText nfkd t ≠ [] := by
  rw [cleanupText_eq]
  exact (ends_terminal_aux _).1

theorem cleanupText_ends_terminal (nfkd : Str → Str) (t : Str) :
    ∃ c, (cleanupText nfkd t).getLast? = some c ∧
      terminalChars.contains c = true := by
  rw [cleanupText_eq]
  exact (ends_terminal_aux _).2

theorem foldl_map_pairs (prs : List (Char × Char)) (s : Str) :
    prs.foldl (fun t kv => t.map fun c => if c = kv.1 then kv.2 else c) s =
      s.map fun c => prs.foldl (fun x kv => if x = kv.1 then kv.2 else x) c := by
  induction prs generalizing s with
  | nil => simp
  | cons p ps ih =>
    rw [List.foldl_cons, ih, List.map_map]
    rfl

theorem replChar_ne_slash (c : Char) :
    charReplacements.foldl (fun x kv => if x = kv.1 then kv.2 else x) c ≠
      '/' := by
  have hsplit : charReplacements = charReplacements.take 13 ++
      ('/', ' ') :: charReplacements.drop 14 := rfl
  rw [hsplit, List.foldl_append, List.foldl_cons]
  have hd : charReplacements.drop 14 =
      [('#', ' '), (Char.ofNat 0x2192, ' '), (Char.ofNat 0x2190, ' ')] := rfl
  rw [hd]
  set y := charReplacements.take 13 |>.foldl
    (fun x kv => if x = kv.1 then kv.2 else x) c with hy
  have hz : (if y = ('/', ' ').1 then ('/', ' ').2 else y) ≠ '/' := by
    by_cases h : y = '/'
    · rw [if_pos h]; decide
    · rw [if_neg h]; exact h
  set z := if y = ('/', ' ').1 then ('/', ' ').2 else y with hzdef
  simp only [List.foldl_cons, List.foldl_nil]
  split_ifs <;> first | decide | exact hz

theorem no_slash_applyCharReplacements (s : Str) :
    '/' ∉ applyCharReplacements s := by
  rw [applyCharReplacements, foldl_map_pairs]
  intro hx
  rcases List.mem_map.mp hx with ⟨c, _, hc⟩
  exact replChar_ne_slash c hc

theorem mem_replaceAllStrAux (pat rep : Str) (x : Char) :
    ∀ (fuel : Nat) (s : Str), x ∈ replaceAllStrAux pat rep fuel s →
      x ∈ s ∨ x ∈ rep := by
  intro fuel
  induction fuel with
  | zero =>
    intro s hx
    cases s with
    | nil => simp [replaceAllStrAux] at hx
    | cons c cs => exact Or.inl (by simpa [replaceAllStrAux] using hx)
  | succ n ih =>
    intro s hx
    cases s with
    | nil => simp [replaceAllStrAux] at hx
    | cons c cs =>
      rw [replaceAllStrAux] at hx
      by_cases hp : pat.isPrefixOf (c :: cs) = true
      · rw [if_pos hp] at hx
        rcases List.mem_append.mp hx with h | h
        · exact Or.inr h
        · rcases ih _ h with h2 | h2
          · exact Or.inl ((List.drop_sublist _ _).subset h2)
          · exact Or.inr h2
      · rw [if_neg hp] at hx
        rcases List.mem_cons.mp hx with rfl | h
        · exact Or.inl (List.mem_cons_self _ _)
        · rcases ih cs h with h2 | h2
          · exact Or.inl (List.mem_cons_of_mem _ h2)
          · exact Or.inr h2

theorem mem_replaceAllStr (pat rep : Str) (x : Char) (s : Str)
    (hx : x ∈ replaceAllStr pat rep s) : x ∈ s ∨ x ∈ rep := by
  rw [replaceAllStr] at hx
  by_cases hp : pat = []
  · rw [if_pos hp] at hx
    exact Or.inl hx
  · rw [if_neg hp] at hx
    exact mem_replaceAllStrAux pat rep x s.length s hx

theorem mem_foldl_replace (prs : List (Str × Str)) (x : Char) :
    ∀ s, x ∈ prs.foldl (fun t kv => replaceAllStr kv.1 kv.2 t) s →
      x ∈ s ∨ ∃ kv ∈ prs, x ∈ kv.2 := by
  induction prs with
  | nil => intro s hx; exact Or.inl hx
  | cons p ps ih =>
    intro s hx
    rw [List.foldl_cons] at hx
    rcases ih _ hx with h | ⟨kv, hkv, hxkv⟩
    · rcases mem_replaceAllStr p.1 p.2 x s h with h2 | h2
      · exact Or.inl h2
      · exact Or.inr ⟨p, List.mem_cons_self _ _, h2⟩
    · exact Or.inr ⟨kv, List.mem_cons_of_mem _ hkv, hxkv⟩

theorem mem_replaceFirst (pat rep : Str) (x : Char) :
    ∀ s, x ∈ replaceFirst pat rep s → x ∈ s ∨ x ∈ rep := by
  intro s
  induction s with
  | nil => intro hx; simp [replaceFirst] at hx
  | cons c cs ih =>
    intro hx
    rw [replaceFirst] at hx
    by_cases hp : pat.isPrefixOf (c :: cs) = true
    · rw [if_pos hp] at hx
      rcases List.mem_append.mp hx with h | h
      · exact Or.inr h
      · exact Or.inl ((List.drop_sublist _ _).subset h)
    · rw [if_neg hp] at hx
      rcases List.mem_cons.mp hx with rfl | h
      · exact Or.inl (List.mem_cons_self _ _)
      · rcases ih h with h2 | h2
        · exact Or.inl (List.mem_cons_of_mem _ h2)
        · exact Or.inr h2

theorem mem_collapsePairAux (c x : Char) :
    ∀ (fuel : Nat) (s : Str), x ∈ collapsePairAux c fuel s →
      x ∈ s ∨ x = c := by
  intro fuel
  induction fuel with
  | zero => intro s hx; exact Or.inl hx
  | succ n ih =>
    intro s hx
    rw [collapsePairAux] at hx
    by_cases hc : containsSub [c, c] s = true
    · rw [if_pos hc] at hx
      rcases ih _ hx with h | h
      · rcases mem_replaceFirst [c, c] [c] x s h with h2 | h2
        · exact Or.inl h2
        · exact Or.inr (by simpa using h2)
      · exact Or.inr h
    · rw [if_neg hc] at hx
      exact Or.inl hx

theorem mem_collapsePair (c x : Char) (s : Str)
    (hx : x ∈ collapsePair c s) : x ∈ s ∨ x = c :=
  mem_collapsePairAux c x s.length s hx

theorem mem_collapseWSAux (x : Char) :
    ∀ (fuel : Nat) (s : Str), x ∈ collapseWSAux fuel s →
      x ∈ s ∨ x = ' ' := by
  intro fuel
  induction fuel with
  | zero =>
    intro s hx
    cases s with
    | nil => simp [collapseWSAux] at hx
    | cons c cs => exact Or.inl (by simpa [collapseWSAux] using hx)
  | succ n ih =>
    intro s hx
    cases s with
    | nil => simp [collapseWSAux] at hx
    | cons c cs =>
      rw [collapseWSAux] at hx
      by_cases hc : isWS c = true
      · rw [if_pos hc] at hx
        rcases List.mem_cons.mp hx with rfl | h
        · exact Or.inr rfl
        · rcases ih _ h with h2 | h2
          · exact Or.inl (List.mem_cons_of_mem _
              ((List.dropWhile_sublist _).subset h2))
          · exact Or.inr h2
      · rw [if_neg hc] at hx
        rcases List.mem_cons.mp hx with rfl | h
        · exact Or.inl (List.mem_cons_self _ _)
        · rcases ih cs h with h2 | h2
          · exact Or.inl (List.mem_cons_of_mem _ h2)
          · exact Or.inr h2

theorem mem_collapseWS (x : Char) (s : Str) (hx : x ∈ collapseWS s) :
    x ∈ s ∨ x = ' ' :=
  mem_collapseWSAux x s.length s hx

theorem mem_trimStr_subset (x : Char) (s : Str) (hx : x ∈ trimStr s) :
    x ∈ s := by
  rw [trimStr] at hx
  rw [List.mem_reverse] at hx
  have h1 := (List.dropWhile_sublist _).subset hx
  rw [List.mem_reverse] at h1
  exact (List.dropWhile_sublist _).subset h1

theorem cleanupText_no_slash (nfkd : Str → Str) (t : Str) :
    '/' ∉ cleanupText nfkd t := by
  intro hx
  rw [cleanupText_eq] at hx
  have hT : '/' ∈ trimStr (collapseWS (collapsePair (Char.ofNat 96)
      (collapsePair (Char.ofNat 39) (collapsePair (Char.ofNat 34)
        (applySpacingFixes (applyExprReplacements (removeSpecialSymbols
          (applyCharReplacements
            ((nfkd t).filter fun c => !(isEmoji c)))))))))) := by
    by_cases h : ((trimStr (collapseWS (collapsePair (Char.ofNat 96)
        (collapsePair (Char.ofNat 39) (collapsePair (Char.ofNat 34)
          (applySpacingFixes (applyExprReplacements (removeSpecialSymbols
            (applyCharReplacements
              ((nfkd t).filter fun c =>
                !(isEmoji c))))))))))).getLast?.elim false
        fun c => terminalChars.contains c) = true
    · rwa [if_pos h] at hx
    · rw [if_neg h] at hx
      rcases List.mem_append.mp hx with h2 | h2
      · exact h2
      · simp at h2
  have h1 := mem_trimStr_subset _ _ hT
  rcases mem_collapseWS _ _ h1 with h2 | h2
  swap
  · exact absurd h2 (by decide)
  rcases mem_collapsePair _ _ _ h2 with h3 | h3
  swap
  · exact absurd h3 (by decide)
  rcases mem_collapsePair _ _ _ h3 with h4 | h4
  swap
  · exact absurd h4 (by decide)
  rcases mem_collapsePair _ _ _ h4 with h5 | h5
  swap
  · exact absurd h5 (by decide)
  rcases mem_foldl_replace _ _ _ h5 with h6 | ⟨kv, hkv, hxkv⟩
  swap
  · revert hxkv
    revert hkv
    revert kv
    decide
  rcases mem_foldl_replace _ _ _ h6 with h7 | ⟨kv, hkv, hxkv⟩
  swap
  · revert hxkv
    revert hkv
    revert kv
    decide
  have h8 := List.mem_of_mem_filter h7
  exact no_slash_applyCharReplacements _ h8

theorem countOcc_short (pat : Str) :
    ∀ (s : Str), s.length < pat.length → countOcc pat s = 0 := by
  intro s
  induction s with
  | nil =>
    intro h
    rw [countOcc]
    rw [if_neg]
    intro he
    rw [List.isEmpty_iff] at he
    rw [he] at h
    simp at h
  | cons c cs ih =>
    intro h
    rw [countOcc]
    rw [if_neg, ih (by simp at h ⊢; omega)]
    intro hp
    have := (List.isPrefixOf_iff_prefix.mp hp).length_le
    omega

theorem countOcc_cons2 (a b : Char) (rest : Str) :
    countOcc (a :: b :: rest) (a :: b :: rest) = 1 := by
  rw [countOcc]
  rw [if_pos (List.isPrefixOf_iff_prefix.mpr (List.prefix_refl _))]
  rw [countOcc_short _ _ (by simp)]

theorem countOcc_append_tag (rest W : Str) (hW : '/' ∉ W) :
    countOcc ('<' :: '/' :: rest) (W ++ '<' :: '/' :: rest) = 1 := by
  induction W with
  | nil => simpa using countOcc_cons2 '<' '/' rest
  | cons x xs ih =>
    rw [List.cons_append, countOcc]
    rw [if_neg, ih fun hc => hW (List.mem_cons_of_mem _ hc)]
    intro hp
    rcases List.isPrefixOf_iff_prefix.mp hp with ⟨tail2, ht⟩
    rw [List.cons_append, List.cons_append] at ht
    have hx : '<' = x := (List.cons.injEq _ _ _ _).mp ht |>.1
    have ht2 : '/' :: (rest ++ tail2) = xs ++ '<' :: '/' :: rest :=
      (List.cons.injEq _ _ _ _).mp ht |>.2
    cases xs with
    | nil =>
      simp only [List.nil_append] at ht2
      have : '/' = '<' := (List.cons.injEq _ _ _ _).mp ht2 |>.1
      exact absurd this (by decide)
    | cons y ys =>
      rw [List.cons_append] at ht2
      have hy : '/' = y := (List.cons.injEq _ _ _ _).mp ht2 |>.1
      apply hW
      rw [← hy]
      exact List.mem_cons_of_mem _ (List.mem_cons_self _ _)

theorem validLang_no_slash (lang : Str) (h : isValidLang lang = true) :
    '/' ∉ lang := by
  have hmem : lang ∈ AVAILABLE_LANGS := by
    rw [isValidLang] at h
    simpa using h
  fin_cases hmem <;> decide

/-- C5 counterexample: the claim fails on both counts read literally.
For the input `"<en>x"` the returned string is `<en><en>x.</en>`: the
open tag `<en>` occurs twice (not exactly once), and the full returned
string ends in `>` (the close tag), which is not one of the terminal
punctuation characters. -/
theorem c5_counterexample :
    preprocessText nfkdId "<en>x".data "en".data =
      .ok "<en><en>x.</en>".data ∧
    countOcc (openTag "en".data) "<en><en>x.</en>".data = 2 ∧
    ("<en><en>x.</en>".data.getLast?.elim false
      fun c => terminalChars.contains c) = false :=
  ⟨by decide, by decide, by decide⟩

/-- C5 (amended): for every input text and supported language, normalize
returns `<lang> ++ inner ++ </lang>` where the inner normalized text is
non-empty and ends in one of the defined terminal characters; the close
tag occurs exactly once in the returned string (at its end, since the
only `/` belongs to the close tag), and the returned string starts with the
open tag.  The full returned string itself ends in `>` rather than a
terminal character, and the open tag can occur more than once when the
input text contains it. -/
theorem c5_normalization_shape (nfkd : Str → Str) (text lang : Str)
    (h : isValidLang lang = true) :
    preprocessText nfkd text lang =
      .ok (openTag lang ++ cleanupText nfkd text ++ closeTag lang) ∧
    cleanupText nfkd text ≠ [] ∧
    (∃ c, (cleanupText nfkd text).getLast? = some c ∧
      terminalChars.contains c = true) ∧
    countOcc (closeTag lang)
      (openTag lang ++ cleanupText nfkd text ++ closeTag lang) = 1 ∧
    (openTag lang).isPrefixOf
      (openTag lang ++ cleanupText nfkd text ++ closeTag lang) = true := by
  refine ⟨preprocessText_ok nfkd text lang h, cleanupText_ne_nil nfkd text,
    cleanupText_ends_terminal nfkd text, ?_, ?_⟩
  · rw [closeTag]
    refine countOcc_append_tag (lang ++ ['>'])
      (openTag lang ++ cleanupText nfkd text) ?_
    intro hc
    rcases List.mem_append.mp hc with h1 | h1
    · rw [openTag] at h1
      rcases List.mem_cons.mp h1 with h2 | h2
      · exact absurd h2 (by decide)
      · rcases List.mem_append.mp h2 with h3 | h3
        · exact validLang_no_slash lang h h3
        · rcases List.mem_singleton.mp h3 with h4
          exact absurd h4 (by decide)
    · exact cleanupText_no_slash nfkd text h1
  · exact List.isPrefixOf_iff_prefix.mpr
      ((List.prefix_append _ _).trans (List.prefix_append _ _))

/-- C5 witness: the amended theorem at `"Hello"`, `"en"` (the returned
string is `<en>Hello.</en>`, whose inner text ends in `.`). -/
theorem c5_witness :
    isValidLang "en".data = true ∧
    (preprocessText nfkdId "Hello".data "en".data =
      .ok (openTag "en".data ++ cleanupText nfkdId "Hello".data ++
        closeTag "en".data) ∧
    cleanupText nfkdId "Hello".data ≠ [] ∧
    (∃ c, (cleanupText nfkdId "Hello".data).getLast? = some c ∧
      terminalChars.contains c = true) ∧
    countOcc (closeTag "en".data)
      (openTag "en".data ++ cleanupText nfkdId "Hello".data ++
        closeTag "en".data) = 1 ∧
    (openTag "en".data).isPrefixOf
      (openTag "en".data ++ cleanupText nfkdId "Hello".data ++
        closeTag "en".data) = true) :=
  ⟨by decide, c5_normalization_shape nfkdId "Hello".data "en".data
    (by decide)⟩
